import Mathlib

/-!
# AudioNormalizer: peak analysis and gain rewrite of WAV files

A shallow embedding of `AudioNormalizer.cpp` and the properties of it that the
specification states.

Conventions of the embedding

* The file contents (`vector<char> buffer`) are a `List Byte`; a pointer into the
  buffer is the offset of the byte it points at (`buffer.data()` is offset `0`,
  `end` is `buffer.length`), and a pointer that may be null is an `Option Nat`.
* The target is the x86-64 ABI the program is built for: little endian, `int`
  is 32 bits wide in 2-complement, and plain `char` is signed.  Integer
  arithmetic that can leave its type is written with an explicit reduction
  modulo `2 ^ w`.
* `double` values are modelled by exact rationals: every finite double is a
  rational, and sums, products and quotients are taken exactly.
* A load or store outside the buffer, and a conversion from floating point to an
  integer type that cannot hold the value, have no defined result in C++; the
  embedding reports them as `Fault.outOfBounds` and `Fault.overflow`.
* The two sample loops need not terminate, so they carry a fuel argument that
  counts passes of the outer `while`; `Fault.outOfFuel` means the budget is
  used up.
-/

namespace AudioNormalizer

/-! ## Machine-level helpers -/

/-- Ways in which a run of the embedded code stops without a result. -/
inductive Fault where
  | outOfBounds
  | overflow
  | outOfFuel
deriving DecidableEq, Repr

/-- One byte of the file. -/
abbrev Byte := Fin 256

/-- Decidable equality of run results, rationals included. -/
instance instDecidableEqRun {α : Type} [DecidableEq α] : DecidableEq (Except Fault α) :=
  fun a b =>
    match a, b with
    | .ok x, .ok y =>
      if h : x = y then isTrue (congrArg Except.ok h)
      else isFalse (fun h2 => h (Except.ok.inj h2))
    | .error x, .error y =>
      if h : x = y then isTrue (congrArg Except.error h)
      else isFalse (fun h2 => h (Except.error.inj h2))
    | .ok _, .error _ => isFalse (fun h => Except.noConfusion h)
    | .error _, .ok _ => isFalse (fun h => Except.noConfusion h)

/-- Load of the unsigned byte at offset `p`. -/
def rdU8 (buffer : List Byte) (p : Nat) : Except Fault Nat :=
  match buffer[p]? with
  | some b => .ok b.val
  | none => .error .outOfBounds

/-- Little-endian load of a `uint16_t` at offset `p`. -/
def rdU16 (buffer : List Byte) (p : Nat) : Except Fault Nat := do
  let b0 ← rdU8 buffer p
  let b1 ← rdU8 buffer (p + 1)
  pure (b0 + 256 * b1)

/-- Little-endian load of a `uint32_t` at offset `p`. -/
def rdU32 (buffer : List Byte) (p : Nat) : Except Fault Nat := do
  let b0 ← rdU8 buffer p
  let b1 ← rdU8 buffer (p + 1)
  let b2 ← rdU8 buffer (p + 2)
  let b3 ← rdU8 buffer (p + 3)
  pure (b0 + 256 * b1 + 65536 * b2 + 16777216 * b3)

/-- Value of the `w`-bit pattern `n` read as a signed 2-complement integer. -/
def asSigned (w n : Nat) : Int :=
  if n < 2 ^ (w - 1) then (n : Int) else (n : Int) - 2 ^ w

/-- The `w`-bit pattern of the integer `z` (reduction modulo `2 ^ w`). -/
def bitsOf (w : Nat) (z : Int) : Nat := (z % 2 ^ w).toNat

/-- Load through `reinterpret_cast<const int16_t*>`. -/
def rdI16 (buffer : List Byte) (p : Nat) : Except Fault Int := do
  let n ← rdU16 buffer p
  pure (asSigned 16 n)

/-- Load through `reinterpret_cast<const int32_t*>`. -/
def rdI32 (buffer : List Byte) (p : Nat) : Except Fault Int := do
  let n ← rdU32 buffer p
  pure (asSigned 32 n)

/-- Store of one byte at offset `p`: the low eight bits of `z`. -/
def wrU8 (buffer : List Byte) (p : Nat) (z : Int) : Except Fault (List Byte) :=
  if p < buffer.length then .ok (buffer.set p (Fin.ofNat (bitsOf 8 z)))
  else .error .outOfBounds

/-- Little-endian store of the low 16 bits of `z` at offset `p`. -/
def wrI16 (buffer : List Byte) (p : Nat) (z : Int) : Except Fault (List Byte) := do
  let buffer ← wrU8 buffer p z
  wrU8 buffer (p + 1) (z / 256)

/-- Little-endian store of the low 32 bits of `z` at offset `p`. -/
def wrI32 (buffer : List Byte) (p : Nat) (z : Int) : Except Fault (List Byte) := do
  let buffer ← wrU8 buffer p z
  let buffer ← wrU8 buffer (p + 1) (z / 256)
  let buffer ← wrU8 buffer (p + 2) (z / 65536)
  wrU8 buffer (p + 3) (z / 16777216)

/-- The 32-bit pattern of a plain (signed) `char` holding the byte `b`, after
integral promotion to `int`. -/
def charBits (b : Nat) : Nat := if b < 128 then b else b + 0xFFFFFF00

/-- The 24-bit decode shared by lines 81-82 and 240-241:
`val = p[0] | (p[1] << 8) | (p[2] << 16); if (val & 0x800000) val |= 0xFF000000;`
on 32-bit patterns, the operands being promoted plain `char`s. -/
def decode24 (b0 b1 b2 : Nat) : Int :=
  let val := charBits b0 ||| (charBits b1 <<< 8) % 2 ^ 32 ||| (charBits b2 <<< 16) % 2 ^ 32
  let val := if val &&& 0x800000 ≠ 0 then val ||| 0xFF000000 else val
  asSigned 32 val

/-- The 24-bit load of a sample at offset `p`. -/
def rdS24 (buffer : List Byte) (p : Nat) : Except Fault Int := do
  let b0 ← rdU8 buffer p
  let b1 ← rdU8 buffer (p + 1)
  let b2 ← rdU8 buffer (p + 2)
  pure (decode24 b0 b1 b2)

/-- The function `std::abs(int)`: the result is again a 32-bit `int`, so the
magnitude of `INT32_MIN` comes back as `INT32_MIN`. -/
def abs32 (v : Int) : Int := asSigned 32 (bitsOf 32 |v|)

/-- The function `std::round` on a double: nearest integer, halves away from zero. -/
def cround (x : ℚ) : Int :=
  if 0 ≤ x then Rat.floor (x + 1 / 2) else -Rat.floor (-x + 1 / 2)

/-- The conversion `static_cast<int>` of an integral double. -/
def castInt32 (z : Int) : Except Fault Int :=
  if -2147483648 ≤ z ∧ z ≤ 2147483647 then .ok z else .error .overflow

/-- The conversion `static_cast<int64_t>` of an integral double. -/
def castInt64 (z : Int) : Except Fault Int :=
  if -9223372036854775808 ≤ z ∧ z ≤ 9223372036854775807 then .ok z else .error .overflow

/-- The function `std::clamp(v, lo, hi)`. -/
def clamp (v lo hi : Int) : Int := if v < lo then lo else if hi < v then hi else v

/-- The four-character tag `"RIFF"`. -/
def tagRIFF : List Byte := [0x52, 0x49, 0x46, 0x46]

/-- The four-character tag `"WAVE"`. -/
def tagWAVE : List Byte := [0x57, 0x41, 0x56, 0x45]

/-- The four-character tag `"fmt "`. -/
def tagFmt : List Byte := [0x66, 0x6D, 0x74, 0x20]

/-- The four-character tag `"data"`. -/
def tagData : List Byte := [0x64, 0x61, 0x74, 0x61]

/-- Lines 40-43: `memcmp(id, tag, 4) == 0` on the four bytes at offset `id`. -/
def matchTag (buffer : List Byte) (id : Nat) (tag : List Byte) : Except Fault Bool :=
  if id + 4 ≤ buffer.length then .ok ((buffer.drop id).take 4 == tag)
  else .error .outOfBounds

/-! ## The struct fields read through a `FmtSubchunk*` -/

/-- Field `fmt->audioFormat` (payload offset 0). -/
def FmtSubchunk.audioFormat (buffer : List Byte) (fmt : Nat) : Except Fault Nat :=
  rdU16 buffer fmt

/-- Field `fmt->numChannels` (payload offset 2). -/
def FmtSubchunk.numChannels (buffer : List Byte) (fmt : Nat) : Except Fault Nat :=
  rdU16 buffer (fmt + 2)

/-- Field `fmt->bitsPerSample` (payload offset 14). -/
def FmtSubchunk.bitsPerSample (buffer : List Byte) (fmt : Nat) : Except Fault Nat :=
  rdU16 buffer (fmt + 14)

/-! ## computeMaxAmplitude (lines 45-106) -/

/-- Lines 65-91: the magnitude of the sample at `ptr` in the tier chosen by `bps`
and the number of bytes the tier advances by; `none` stands for the final
`else` branch (unsupported bit depth). -/
def computeMaxAmplitude.sample (buffer : List Byte) (bps ptr : Nat) :
    Except Fault (Option (ℚ × Nat)) :=
  if bps ≤ 8 then do
    let val ← rdU8 buffer ptr
    pure (some ((abs32 ((val : Int) - 128) : Int) / 128, 1))
  else if bps ≤ 16 then do
    let val ← rdI16 buffer ptr
    pure (some ((abs32 val : Int) / 32768, 2))
  else if bps ≤ 24 then do
    let val ← rdS24 buffer ptr
    pure (some ((abs32 val : Int) / 8388608, 3))
  else if bps ≤ 32 then do
    let val ← rdI32 buffer ptr
    pure (some ((abs32 val : Int) / 2147483647, 4))
  else pure none

/-- Lines 63-102: the `for` loop over the channels of one frame, `n` being the
number of channels still to go.  The result is `Sum.inl r` when the function
returns `r` from inside the loop (line 95), and `Sum.inr (ptr, maxAmp)` when the
loop is left normally. -/
def computeMaxAmplitude.channelLoop (buffer : List Byte) (bps end_ : Nat) :
    Nat → Nat → ℚ → Except Fault (ℚ ⊕ (Nat × ℚ))
  | 0, ptr, maxAmp => .ok (.inr (ptr, maxAmp))
  | n + 1, ptr, maxAmp =>
    if ptr < end_ then
      match computeMaxAmplitude.sample buffer bps ptr with
      | .error e => .error e
      | .ok none => .ok (.inl 0)
      | .ok (some (sample, width)) =>
        computeMaxAmplitude.channelLoop buffer bps end_ n (ptr + width)
          (if sample > maxAmp then sample else maxAmp)
    else .ok (.inr (ptr, maxAmp))

/-- Lines 61-105: the outer `while (ptr < end)`, one unit of fuel per pass. -/
def computeMaxAmplitude.whileLoop (buffer : List Byte) (bps channels end_ : Nat) :
    Nat → Nat → ℚ → Except Fault ℚ
  | 0, _, _ => .error .outOfFuel
  | fuel + 1, ptr, maxAmp =>
    if ptr < end_ then
      match computeMaxAmplitude.channelLoop buffer bps end_ channels ptr maxAmp with
      | .error e => .error e
      | .ok (.inl r) => .ok r
      | .ok (.inr (ptr, maxAmp)) =>
        computeMaxAmplitude.whileLoop buffer bps channels end_ fuel ptr maxAmp
    else .ok maxAmp

/-- Lines 45-106: `computeMaxAmplitude(data, size, fmt)`, the pointers `data` and
`fmt` being offsets into `buffer`. -/
def computeMaxAmplitude (fuel : Nat) (buffer : List Byte) (data size fmt : Nat) :
    Except Fault ℚ := do
  let audioFormat ← FmtSubchunk.audioFormat buffer fmt
  if audioFormat ≠ 1 then pure 0
  else do
    let bps ← FmtSubchunk.bitsPerSample buffer fmt
    let channels ← FmtSubchunk.numChannels buffer fmt
    computeMaxAmplitude.whileLoop buffer bps channels (data + size) fuel data 0

/-! ## The chunk walk -/

/-- What a chunk walk leaves behind: the pointers `fmt` and `dataPtr` (null or
an offset) and `dataSize`. -/
structure Walk where
  fmt : Option Nat
  dataPtr : Option Nat
  dataSize : Nat
deriving DecidableEq, Repr

/-- The pointer a walk moves to after a chunk: past the payload, and past one
pad byte when the size is odd (lines 158-159). -/
def nextChunk (chunkData size : Nat) : Nat :=
  if size % 2 ≠ 0 then chunkData + size + 1 else chunkData + size

/-- Lines 137-160: the chunk loop of `processWavFile`, from the pointer `ptr`
with the format pointer found so far.  Every pass moves `ptr` forward by at
least eight bytes, and the first argument bounds the number of passes. -/
def processWavFile.walk (buffer : List Byte) : Nat → Nat → Option Nat → Except Fault Walk
  | 0, _, _ => .error .outOfFuel
  | fuel + 1, ptr, fmt =>
    if ptr + 8 ≤ buffer.length then
      match rdU32 buffer (ptr + 4), matchTag buffer ptr tagFmt, matchTag buffer ptr tagData with
      | .ok size, .ok isFmt, .ok isData =>
        let chunkData := ptr + 8
        if chunkData + size > buffer.length then .ok ⟨fmt, none, 0⟩
        else if isFmt then
          processWavFile.walk buffer fuel (nextChunk chunkData size) (some chunkData)
        else if isData then .ok ⟨fmt, some chunkData, size⟩
        else processWavFile.walk buffer fuel (nextChunk chunkData size) fmt
      | _, _, _ => .error .outOfBounds
    else .ok ⟨fmt, none, 0⟩

/-- Lines 108-166: `processWavFile` on a file that could be opened and holds
`buffer`; the value is the one returned (and, on the last path, also stored
through `outMaxAmp`). -/
def processWavFile (fuel : Nat) (buffer : List Byte) : Except Fault ℚ :=
  if buffer.length < 12 then .ok 0
  else
    match matchTag buffer 0 tagRIFF, matchTag buffer 8 tagWAVE with
    | .ok isRiff, .ok isWave =>
      if !isRiff || !isWave then .ok 0
      else
        match processWavFile.walk buffer (buffer.length + 1) 12 none with
        | .error e => .error e
        | .ok w =>
          match w.fmt, w.dataPtr with
          | some fmt, some dataPtr => computeMaxAmplitude fuel buffer dataPtr w.dataSize fmt
          | _, _ => .ok 0
    | _, _ => .error .outOfBounds

/-! ## normalizeWav (lines 168-263) -/

/-- Lines 192-208: the chunk loop of `normalizeWav`. -/
def normalizeWav.walk (buffer : List Byte) : Nat → Nat → Option Nat → Except Fault Walk
  | 0, _, _ => .error .outOfFuel
  | fuel + 1, ptr, fmt =>
    if ptr + 8 ≤ buffer.length then
      match rdU32 buffer (ptr + 4), matchTag buffer ptr tagFmt, matchTag buffer ptr tagData with
      | .ok size, .ok isFmt, .ok isData =>
        let chunkData := ptr + 8
        if chunkData + size > buffer.length then .ok ⟨fmt, none, 0⟩
        else if isFmt then
          normalizeWav.walk buffer fuel (nextChunk chunkData size) (some chunkData)
        else if isData then .ok ⟨fmt, some chunkData, size⟩
        else normalizeWav.walk buffer fuel (nextChunk chunkData size) fmt
      | _, _, _ => .error .outOfBounds
    else .ok ⟨fmt, none, 0⟩

/-- The arithmetic every tier of lines 222-256 applies to a decoded value `v`:
`std::clamp(static_cast<T>(round(v * gainFactor)), lo, hi)`, where `cast` is the
conversion to the intermediate type `T` (`int`, or `int64_t` in the 32-bit
tier). -/
def normalizeWav.rescale (cast : Int → Except Fault Int) (lo hi : Int) (v : Int)
    (gainFactor : ℚ) : Except Fault Int := do
  let s ← cast (cround (v * gainFactor))
  pure (clamp s lo hi)

/-- Lines 222-256: the rewrite of the sample at `audioPtr` in the tier chosen by
`bps`; the result is the buffer after the store and the number of bytes
`audioPtr` advances by, which is `0` when no tier applies (`bps > 32`). -/
def normalizeWav.sample (buffer : List Byte) (bps audioPtr : Nat) (gainFactor : ℚ) :
    Except Fault (List Byte × Nat) :=
  if bps ≤ 8 then do
    let val ← rdU8 buffer audioPtr
    let s ← normalizeWav.rescale castInt32 (-128) 127 ((val : Int) - 128) gainFactor
    let buffer ← wrU8 buffer audioPtr (s + 128)
    pure (buffer, 1)
  else if bps ≤ 16 then do
    let val ← rdI16 buffer audioPtr
    let s ← normalizeWav.rescale castInt32 (-32768) 32767 val gainFactor
    let buffer ← wrI16 buffer audioPtr s
    pure (buffer, 2)
  else if bps ≤ 24 then do
    let val ← rdS24 buffer audioPtr
    let val ← normalizeWav.rescale castInt32 (-8388608) 8388607 val gainFactor
    let buffer ← wrU8 buffer audioPtr val
    let buffer ← wrU8 buffer (audioPtr + 1) (val / 256)
    let buffer ← wrU8 buffer (audioPtr + 2) (val / 65536)
    pure (buffer, 3)
  else if bps ≤ 32 then do
    let val ← rdI32 buffer audioPtr
    let s ← normalizeWav.rescale castInt64 (-2147483648) 2147483647 val gainFactor
    let buffer ← wrI32 buffer audioPtr s
    pure (buffer, 4)
  else pure (buffer, 0)

/-- Lines 220-257: the `for` loop over the channels of one frame, `n` being the
number of channels still to go. -/
def normalizeWav.channelLoop (bps audioEnd : Nat) (gainFactor : ℚ) :
    Nat → Nat → List Byte → Except Fault (Nat × List Byte)
  | 0, audioPtr, buffer => .ok (audioPtr, buffer)
  | n + 1, audioPtr, buffer =>
    if audioPtr < audioEnd then
      match normalizeWav.sample buffer bps audioPtr gainFactor with
      | .error e => .error e
      | .ok (buffer, width) =>
        normalizeWav.channelLoop bps audioEnd gainFactor n (audioPtr + width) buffer
    else .ok (audioPtr, buffer)

/-- Lines 218-258: the outer `while (audioPtr < audioEnd)`, one unit of fuel per
pass. -/
def normalizeWav.whileLoop (bps channels audioEnd : Nat) (gainFactor : ℚ) :
    Nat → Nat → List Byte → Except Fault (List Byte)
  | 0, _, _ => .error .outOfFuel
  | fuel + 1, audioPtr, buffer =>
    if audioPtr < audioEnd then
      match normalizeWav.channelLoop bps audioEnd gainFactor channels audioPtr buffer with
      | .error e => .error e
      | .ok (audioPtr, buffer) =>
        normalizeWav.whileLoop bps channels audioEnd gainFactor fuel audioPtr buffer
    else .ok buffer

/-- Lines 212-258: the in-place rewrite of the data range, given the pointers the
walk found. -/
def normalizeWav.apply (fuel : Nat) (buffer : List Byte) (fmt dataPtr dataSize : Nat)
    (gainFactor : ℚ) : Except Fault (List Byte) := do
  let bps ← FmtSubchunk.bitsPerSample buffer fmt
  let channels ← FmtSubchunk.numChannels buffer fmt
  normalizeWav.whileLoop bps channels (dataPtr + dataSize) gainFactor fuel dataPtr buffer

/-- Lines 168-263: `normalizeWav` on an input file that could be opened and holds
`buffer`.  The value is `none` when the function returns `false`, and
`some out` when it writes `out` to the output path and returns `true`. -/
def normalizeWav (fuel : Nat) (buffer : List Byte) (gainFactor : ℚ) :
    Except Fault (Option (List Byte)) :=
  if buffer.length < 12 then .ok none
  else
    match matchTag buffer 0 tagRIFF, matchTag buffer 8 tagWAVE with
    | .ok isRiff, .ok isWave =>
      if !isRiff || !isWave then .ok none
      else
        match normalizeWav.walk buffer (buffer.length + 1) 12 none with
        | .error e => .error e
        | .ok w =>
          match w.fmt, w.dataPtr with
          | some fmt, some dataPtr =>
            match normalizeWav.apply fuel buffer fmt dataPtr w.dataSize gainFactor with
            | .error e => .error e
            | .ok out => .ok (some out)
          | _, _ => .ok none
    | _, _ => .error .outOfBounds

/-! ## main (lines 265-356) -/

/-- Lines 296-326: the chunk loop of the analysis pass in `main`. -/
def main.walk (buffer : List Byte) : Nat → Nat → Option Nat → Except Fault Walk
  | 0, _, _ => .error .outOfFuel
  | fuel + 1, ptr, fmt =>
    if ptr + 8 ≤ buffer.length then
      match rdU32 buffer (ptr + 4), matchTag buffer ptr tagFmt, matchTag buffer ptr tagData with
      | .ok size, .ok isFmt, .ok isData =>
        let chunkData := ptr + 8
        if chunkData + size > buffer.length then .ok ⟨fmt, none, 0⟩
        else if isFmt then
          main.walk buffer fuel (nextChunk chunkData size) (some chunkData)
        else if isData then .ok ⟨fmt, some chunkData, size⟩
        else main.walk buffer fuel (nextChunk chunkData size) fmt
      | _, _, _ => .error .outOfBounds
    else .ok ⟨fmt, none, 0⟩

/-- The variables of `main` that outlive one file: `globalMax`, `loudestFile`
and the map `fileAmplitudes`, kept as a list sorted by path. -/
structure Batch where
  globalMax : ℚ
  loudestFile : String
  fileAmplitudes : List (String × ℚ)
deriving DecidableEq, Repr

/-- The assignment `m[k] = v` of `std::map`: the entry of `k` is replaced or a new
one is put in at its place in key order. -/
def mapAssign (m : List (String × ℚ)) (k : String) (v : ℚ) : List (String × ℚ) :=
  match m with
  | [] => [(k, v)]
  | (k0, v0) :: rest =>
    if k = k0 then (k, v) :: rest
    else if k < k0 then (k, v) :: (k0, v0) :: rest
    else (k0, v0) :: mapAssign rest k v

/-- Lines 286-337: the analysis of one `.wav` entry with contents `buffer`. -/
def main.analyse (fuel : Nat) (st : Batch) (path : String) (buffer : List Byte) :
    Except Fault Batch :=
  match main.walk buffer (buffer.length + 1) 12 none with
  | .error e => .error e
  | .ok w =>
    match w.fmt, w.dataPtr with
    | some fmt, some dataPtr =>
      match computeMaxAmplitude fuel buffer dataPtr w.dataSize fmt with
      | .error e => .error e
      | .ok amp =>
        let st := { st with fileAmplitudes := mapAssign st.fileAmplitudes path amp }
        if amp > st.globalMax then .ok { st with globalMax := amp, loudestFile := path }
        else .ok st
    | _, _ => .ok st

/-- Lines 278-339: the analysis pass over the `.wav` entries of the directory,
each given by its path and contents. -/
def main.analysisPass (fuel : Nat) : Batch → List (String × List Byte) → Except Fault Batch
  | st, [] => .ok st
  | st, (path, buffer) :: rest =>
    match main.analyse fuel st path buffer with
    | .error e => .error e
    | .ok st => main.analysisPass fuel st rest

/-- Lines 343-353: the calls `normalizeWav(path, outPath, gain)` the second loop
makes, in order, each as the pair of `path` and `gain`. -/
def main.normalizeCalls (st : Batch) : List (String × ℚ) :=
  (st.fileAmplitudes.filter (fun e => !(e.2 = 0 || e.2 = st.globalMax))).map
    (fun e => (e.1, st.globalMax / e.2))

/-- Lines 278-339 from the initial values `globalMax = 0`, empty `loudestFile`,
empty map. -/
def main.analysed (fuel : Nat) (files : List (String × List Byte)) : Except Fault Batch :=
  main.analysisPass fuel ⟨0, "", []⟩ files

/-- The analysis pass measures the amplitude `amp` on a file with contents
`buffer`: its walk finds a format chunk and a data chunk, and
`computeMaxAmplitude` returns `amp` on them. -/
def main.Measured (fuel : Nat) (buffer : List Byte) (amp : ℚ) : Prop :=
  ∃ w fmt dataPtr, main.walk buffer (buffer.length + 1) 12 none = .ok w ∧ w.fmt = some fmt ∧
    w.dataPtr = some dataPtr ∧ computeMaxAmplitude fuel buffer dataPtr w.dataSize fmt = .ok amp

/-- What holds of the variables of `main` throughout the analysis of the entries
`files`: `globalMax` is not negative, `loudestFile` is still empty or names an
entry on which the positive amplitude `globalMax` was measured, and every pair
in the map is a path of an entry with an amplitude measured on it. -/
def main.Sound (fuel : Nat) (files : List (String × List Byte)) (st : Batch) : Prop :=
  0 ≤ st.globalMax ∧
  (st.loudestFile = "" ∨
    ∃ b, (st.loudestFile, b) ∈ files ∧ main.Measured fuel b st.globalMax ∧ 0 < st.globalMax) ∧
  ∀ p a, (p, a) ∈ st.fileAmplitudes → ∃ b, (p, b) ∈ files ∧ main.Measured fuel b a

/-- What holds of the variables of `main` once the entries `done`, each at a path
of its own, are analysed: the map holds exactly the measured amplitudes, one
pair per path; no amplitude in it is negative or above `globalMax`; and
`globalMax` is still `0` or is the amplitude of `loudestFile`. -/
def main.Exact (fuel : Nat) (done : List (String × List Byte)) (st : Batch) : Prop :=
  (∀ p a, (p, a) ∈ st.fileAmplitudes ↔ ∃ b, (p, b) ∈ done ∧ main.Measured fuel b a) ∧
  (st.fileAmplitudes.map Prod.fst).Nodup ∧
  (∀ p a, (p, a) ∈ st.fileAmplitudes → 0 ≤ a ∧ a ≤ st.globalMax) ∧
  (st.globalMax = 0 ∨ (st.loudestFile, st.globalMax) ∈ st.fileAmplitudes)

/-! ## The magnitudes of the specification -/

/-- The sign extension of a `w`-bit little-endian value, as the specification
words it: the number itself below `2 ^ (w - 1)`, and the number less `2 ^ w`
otherwise. -/
def Spec.signExtend (w n : Nat) : Int :=
  if n < 2 ^ (w - 1) then (n : Int) else (n : Int) - 2 ^ w

/-- The decoded magnitude of one sample, as the table in section 4.2 of the
specification defines it, from the bytes of the sample in file order. -/
def Spec.magnitude (bps : Nat) (bytes : List Byte) : ℚ :=
  let n : Nat := bytes.foldr (fun b acc => b.val + 256 * acc) 0
  if bps ≤ 8 then (|(n : Int) - 128| : Int) / 128
  else if bps ≤ 16 then (|Spec.signExtend 16 n| : Int) / 32768
  else if bps ≤ 24 then (|Spec.signExtend 24 n| : Int) / 8388608
  else (|Spec.signExtend 32 n| : Int) / 2147483647

/-- The byte width of a sample in the tier of `bps`. -/
def Spec.width (bps : Nat) : Nat :=
  if bps ≤ 8 then 1 else if bps ≤ 16 then 2 else if bps ≤ 24 then 3 else 4

/-- The whole samples of `data`, each `width` bytes wide, in file order; the
first argument bounds their number. -/
def Spec.samples (width : Nat) : Nat → List Byte → List (List Byte)
  | 0, _ => []
  | n + 1, data =>
    if width ≤ data.length ∧ 0 < width then
      data.take width :: Spec.samples width n (data.drop width)
    else []

/-- The true peak of a data range: the maximum of the specification magnitudes
over its samples, and `0` when there is none. -/
def Spec.peak (bps : Nat) (data : List Byte) : ℚ :=
  ((Spec.samples (Spec.width bps) data.length data).map (Spec.magnitude bps)).foldr max 0

/-! ## The chunk layout of the specification -/

/-- The four bytes of a `uint32_t` in little-endian order. -/
def le32 (n : Nat) : List Byte :=
  [Fin.ofNat n, Fin.ofNat (n / 256), Fin.ofNat (n / 65536), Fin.ofNat (n / 16777216)]

/-- A chunk as section 6 of the specification lays it out: a 4-byte id, the
payload, and the value of the pad byte that follows a payload of odd size. -/
structure Spec.Chunk where
  id : List Byte
  payload : List Byte
  pad : Byte

/-- The bytes of a complete chunk: id, little-endian size, payload, and one pad
byte when the size is odd. -/
def Spec.Chunk.bytes (c : Spec.Chunk) : List Byte :=
  c.id ++ (le32 c.payload.length ++ (c.payload ++ if c.payload.length % 2 ≠ 0 then [c.pad] else []))

/-- The bytes of a sequence of complete chunks. -/
def Spec.chunksBytes : List Spec.Chunk → List Byte
  | [] => []
  | c :: cs => c.bytes ++ Spec.chunksBytes cs

/-! ## Sample files -/

/-- A PCM file in the usual layout: the 12-byte RIFF/WAVE header, a `fmt ` chunk
of 16 bytes (audioFormat 1, `channels` channels, 44100 Hz, `bps` bits) at offset
12, and at offset 36 the header of a `data` chunk that declares `declared`
bytes, followed by the bytes `rest` from offset 44 on. -/
def pcmFile (channels bps declared : Nat) (rest : List Byte) : List Byte :=
  tagRIFF ++ [0, 0, 0, 0] ++ tagWAVE
    ++ tagFmt ++ [16, 0, 0, 0]
    ++ [1, 0, Fin.ofNat channels, 0, 0x44, 0xAC, 0, 0, 0x88, 0x58, 0x01, 0, 2, 0, Fin.ofNat bps, 0]
    ++ tagData ++ [Fin.ofNat declared, 0, 0, 0] ++ rest

/-- A 30-byte file whose `fmt ` chunk declares a payload of two bytes (`01 00`)
and is followed at once by an empty `data` chunk. -/
def shortFmtFile : List Byte :=
  tagRIFF ++ [0, 0, 0, 0] ++ tagWAVE ++ tagFmt ++ [2, 0, 0, 0] ++ [1, 0]
    ++ tagData ++ [0, 0, 0, 0]

/-- A 32-bit IEEE-float file: `pcmFile 1 32 4` holding the float `1.0`, with the
audioFormat field at offset 20 set to 3. -/
def floatFile : List Byte := (pcmFile 1 32 4 [0x00, 0x00, 0x80, 0x3F]).set 20 3

/-- The file `pcmFile 1 16 2 [0x00, 0x40]` with its first tag spoilt: the bytes
0..3 read `"RIFX"`. -/
def rifxFile : List Byte := (pcmFile 1 16 2 [0x00, 0x40]).set 3 0x58

/-- A directory of three 16-bit mono files with the peaks 1/4, 1/2 and 1. -/
def trioFiles : List (String × List Byte) :=
  [("a.wav", pcmFile 1 16 2 [0x00, 0x20]), ("b.wav", pcmFile 1 16 2 [0x00, 0x40]),
    ("c.wav", pcmFile 1 16 2 [0x00, 0x80])]

/-- The variables of `main` after the analysis of `trioFiles`. -/
def trioBatch : Batch := ⟨1, "c.wav", [("a.wav", 1 / 4), ("b.wav", 1 / 2), ("c.wav", 1)]⟩

/-- A `LIST` chunk with a payload of three bytes, followed by the pad byte `00`. -/
def listChunk : Spec.Chunk := ⟨[0x4C, 0x49, 0x53, 0x54], [1, 2, 3], 0⟩

/-- The `fmt ` chunk of a 16-bit mono PCM file. -/
def fmtChunk : Spec.Chunk :=
  ⟨tagFmt, [1, 0, 1, 0, 0x44, 0xAC, 0, 0, 0x88, 0x58, 0x01, 0, 2, 0, 16, 0], 0⟩

theorem rdU8_lt {buffer : List Byte} {p b : Nat} (h : rdU8 buffer p = .ok b) : b < 256 := by
  unfold rdU8 at h
  split at h
  · rename_i x _
    cases h
    exact x.isLt
  · cases h

theorem rdU16_lt {buffer : List Byte} {p n : Nat} (h : rdU16 buffer p = .ok n) : n < 65536 := by
  unfold rdU16 at h
  cases h0 : rdU8 buffer p with
  | error e => simp [h0, bind, Except.bind] at h
  | ok b0 =>
    cases h1 : rdU8 buffer (p + 1) with
    | error e => simp [h0, h1, bind, Except.bind] at h
    | ok b1 =>
      simp [h0, h1, bind, Except.bind, pure, Except.pure] at h
      have := rdU8_lt h0
      have := rdU8_lt h1
      omega

theorem rdU32_lt {buffer : List Byte} {p n : Nat} (h : rdU32 buffer p = .ok n) :
    n < 4294967296 := by
  unfold rdU32 at h
  cases h0 : rdU8 buffer p with
  | error e => simp [h0, bind, Except.bind] at h
  | ok b0 =>
    cases h1 : rdU8 buffer (p + 1) with
    | error e => simp [h0, h1, bind, Except.bind] at h
    | ok b1 =>
      cases h2 : rdU8 buffer (p + 2) with
      | error e => simp [h0, h1, h2, bind, Except.bind] at h
      | ok b2 =>
        cases h3 : rdU8 buffer (p + 3) with
        | error e => simp [h0, h1, h2, h3, bind, Except.bind] at h
        | ok b3 =>
          simp [h0, h1, h2, h3, bind, Except.bind, pure, Except.pure] at h
          have := rdU8_lt h0
          have := rdU8_lt h1
          have := rdU8_lt h2
          have := rdU8_lt h3
          omega

theorem asSigned16_range {n : Nat} (h : n < 65536) :
    -32768 ≤ asSigned 16 n ∧ asSigned 16 n ≤ 32767 := by
  unfold asSigned
  split <;> omega

theorem asSigned32_range {n : Nat} (h : n < 4294967296) :
    -2147483648 ≤ asSigned 32 n ∧ asSigned 32 n ≤ 2147483647 := by
  unfold asSigned
  split <;> omega

theorem abs32_of_small {v : Int} (h : |v| < 2147483648) : abs32 v = |v| := by
  have h0 : 0 ≤ |v| := abs_nonneg v
  unfold abs32 bitsOf asSigned
  have e : |v| % 2 ^ 32 = |v| := Int.emod_eq_of_lt h0 (by omega)
  rw [e]
  have : (|v|.toNat : Int) = |v| := Int.toNat_of_nonneg h0
  split
  · exact this
  · rename_i hh
    exfalso; apply hh
    omega

theorem abs32_le (v : Int) : abs32 v ≤ 2147483647 := by
  unfold abs32 bitsOf asSigned
  have h1 : (|v| % 2 ^ 32) < 2 ^ 32 := Int.emod_lt_of_pos _ (by norm_num)
  have h2 : 0 ≤ (|v| % 2 ^ 32) := Int.emod_nonneg _ (by norm_num)
  split <;> omega

theorem le_or_left (a b : Nat) : a ≤ a ||| b :=
  Nat.le_of_testBit (fun i h => by simp [h])

theorem le_or_right (a b : Nat) : b ≤ a ||| b :=
  Nat.le_of_testBit (fun i h => by simp [h])

theorem and_bit23_of_lt {v : Nat} (h : v < 2 ^ 23) : v &&& 0x800000 = 0 := by
  apply Nat.eq_of_testBit_eq
  intro i
  have e : (0x800000 : Nat) = 2 ^ 23 := by norm_num
  rw [e, Nat.testBit_and, Nat.testBit_two_pow]
  by_cases hi : 23 = i
  · subst hi
    simp [Nat.testBit_lt_two_pow h]
  · simp [hi]

/-- The 24-bit decode always lands in the 24-bit signed range: the pattern it ends
with is below `2 ^ 23` or has its nine top bits set. -/
theorem decode24_range (b0 b1 b2 : Nat) (h0 : b0 < 256) (h1 : b1 < 256) (h2 : b2 < 256) :
    -8388608 ≤ decode24 b0 b1 b2 ∧ decode24 b0 b1 b2 ≤ 8388607 := by
  have s1 : (charBits b1 <<< 8) % 2 ^ 32 < 2 ^ 32 := Nat.mod_lt _ (by norm_num)
  have s2 : (charBits b2 <<< 16) % 2 ^ 32 < 2 ^ 32 := Nat.mod_lt _ (by norm_num)
  have key : ∀ V : Nat, (V < 2 ^ 23 ∨ (4286578688 ≤ V ∧ V < 2 ^ 32)) →
      -8388608 ≤ asSigned 32 V ∧ asSigned 32 V ≤ 8388607 := by
    intro V hV
    unfold asSigned
    split <;> omega
  unfold decode24
  simp only []
  apply key
  by_cases hs : b0 < 128 ∧ b1 < 128 ∧ b2 < 128
  · obtain ⟨a0, a1, a2⟩ := hs
    have t0 : charBits b0 < 2 ^ 23 := by unfold charBits; rw [if_pos a0]; omega
    have t1 : (charBits b1 <<< 8) % 2 ^ 32 < 2 ^ 23 := by
      unfold charBits; rw [if_pos a1, Nat.shiftLeft_eq]; omega
    have t2 : (charBits b2 <<< 16) % 2 ^ 32 < 2 ^ 23 := by
      unfold charBits; rw [if_pos a2, Nat.shiftLeft_eq]; omega
    have hlt := Nat.or_lt_two_pow (Nat.or_lt_two_pow t0 t1) t2
    rw [and_bit23_of_lt hlt]
    simp only [ne_eq, not_true_eq_false, if_false]
    exact Or.inl hlt
  · have s0 : charBits b0 < 2 ^ 32 := by unfold charBits; split <;> omega
    have hv := Nat.or_lt_two_pow (Nat.or_lt_two_pow s0 s1) s2
    have hbig : 4286578688 ≤
        charBits b0 ||| (charBits b1 <<< 8) % 2 ^ 32 ||| (charBits b2 <<< 16) % 2 ^ 32 := by
      by_cases a0 : b0 < 128
      · by_cases a1 : b1 < 128
        · have a2 : ¬ b2 < 128 := fun a2 => hs ⟨a0, a1, a2⟩
          have : 4286578688 ≤ (charBits b2 <<< 16) % 2 ^ 32 := by
            unfold charBits; rw [if_neg a2, Nat.shiftLeft_eq]; omega
          exact le_trans this (le_or_right _ _)
        · have : 4286578688 ≤ (charBits b1 <<< 8) % 2 ^ 32 := by
            unfold charBits; rw [if_neg a1, Nat.shiftLeft_eq]; omega
          exact le_trans this (le_trans (le_or_right _ _) (le_or_left _ _))
      · have : 4286578688 ≤ charBits b0 := by
          unfold charBits; rw [if_neg a0]; omega
        exact le_trans this (le_trans (le_or_left _ _) (le_or_left _ _))
    right
    split
    · exact ⟨le_trans hbig (le_or_left _ _), Nat.or_lt_two_pow hv (by norm_num)⟩
    · exact ⟨hbig, hv⟩

/-! ## The range of the analyser -/

theorem ratio_le_one (z d : Int) (hd : 0 < d) (h : z ≤ d) : (z : ℚ) / (d : ℚ) ≤ 1 := by
  have hd2 : (0 : ℚ) < (d : ℚ) := by exact_mod_cast hd
  rw [div_le_one hd2]
  exact_mod_cast h

/-- Every magnitude the analyser decodes is at most one, and every tier advances
by at least one byte. -/
theorem computeMaxAmplitude.sample_le_one {buffer : List Byte} {bps ptr : Nat} {s : ℚ}
    {width : Nat} (h : computeMaxAmplitude.sample buffer bps ptr = .ok (some (s, width))) :
    s ≤ 1 ∧ 0 < width := by
  unfold computeMaxAmplitude.sample at h
  split at h
  · cases h0 : rdU8 buffer ptr with
    | error e => simp [h0, bind, Except.bind] at h
    | ok val =>
      simp only [h0, bind, Except.bind, pure, Except.pure, Except.ok.injEq, Option.some.injEq,
        Prod.mk.injEq] at h
      obtain ⟨hs, hw⟩ := h
      have hv := rdU8_lt h0
      have e : abs32 ((val : Int) - 128) = |(val : Int) - 128| :=
        abs32_of_small (by rw [abs_lt]; omega)
      have hle : abs32 ((val : Int) - 128) ≤ 128 := by rw [e, abs_le]; omega
      refine ⟨?_, by omega⟩
      rw [← hs]
      exact ratio_le_one _ 128 (by norm_num) hle
  · split at h
    · cases h0 : rdI16 buffer ptr with
      | error e => simp [h0, bind, Except.bind] at h
      | ok val =>
        simp only [h0, bind, Except.bind, pure, Except.pure, Except.ok.injEq, Option.some.injEq,
          Prod.mk.injEq] at h
        obtain ⟨hs, hw⟩ := h
        have hr : -32768 ≤ val ∧ val ≤ 32767 := by
          unfold rdI16 at h0
          cases h1 : rdU16 buffer ptr with
          | error e => simp [h1, bind, Except.bind] at h0
          | ok n =>
            simp only [h1, bind, Except.bind, pure, Except.pure, Except.ok.injEq] at h0
            rw [← h0]
            exact asSigned16_range (rdU16_lt h1)
        have e : abs32 val = |val| := abs32_of_small (by rw [abs_lt]; omega)
        have hle : abs32 val ≤ 32768 := by rw [e, abs_le]; omega
        refine ⟨?_, by omega⟩
        rw [← hs]
        exact ratio_le_one _ 32768 (by norm_num) hle
    · split at h
      · cases h0 : rdS24 buffer ptr with
        | error e => simp [h0, bind, Except.bind] at h
        | ok val =>
          simp only [h0, bind, Except.bind, pure, Except.pure, Except.ok.injEq,
            Option.some.injEq, Prod.mk.injEq] at h
          obtain ⟨hs, hw⟩ := h
          have hr : -8388608 ≤ val ∧ val ≤ 8388607 := by
            unfold rdS24 at h0
            cases h1 : rdU8 buffer ptr with
            | error e => simp [h1, bind, Except.bind] at h0
            | ok b0 =>
              cases h2 : rdU8 buffer (ptr + 1) with
              | error e => simp [h1, h2, bind, Except.bind] at h0
              | ok b1 =>
                cases h3 : rdU8 buffer (ptr + 2) with
                | error e => simp [h1, h2, h3, bind, Except.bind] at h0
                | ok b2 =>
                  simp only [h1, h2, h3, bind, Except.bind, pure, Except.pure,
                    Except.ok.injEq] at h0
                  rw [← h0]
                  exact decode24_range b0 b1 b2 (rdU8_lt h1) (rdU8_lt h2) (rdU8_lt h3)
          have e : abs32 val = |val| := abs32_of_small (by rw [abs_lt]; omega)
          have hle : abs32 val ≤ 8388608 := by rw [e, abs_le]; omega
          refine ⟨?_, by omega⟩
          rw [← hs]
          exact ratio_le_one _ 8388608 (by norm_num) hle
      · split at h
        · cases h0 : rdI32 buffer ptr with
          | error e => simp [h0, bind, Except.bind] at h
          | ok val =>
            simp only [h0, bind, Except.bind, pure, Except.pure, Except.ok.injEq,
              Option.some.injEq, Prod.mk.injEq] at h
            obtain ⟨hs, hw⟩ := h
            refine ⟨?_, by omega⟩
            rw [← hs]
            exact ratio_le_one _ 2147483647 (by norm_num) (abs32_le val)
        · simp [pure, Except.pure] at h

/-- The channel loop keeps the running maximum inside `[0, 1]`, and a return from
inside the loop returns `0`. -/
theorem computeMaxAmplitude.channelLoop_range (buffer : List Byte) (bps end_ : Nat) :
    ∀ (n ptr : Nat) (maxAmp : ℚ), 0 ≤ maxAmp → maxAmp ≤ 1 →
      ∀ res, computeMaxAmplitude.channelLoop buffer bps end_ n ptr maxAmp = .ok res →
        match res with
        | .inl r => r = 0
        | .inr (_, m) => 0 ≤ m ∧ m ≤ 1 := by
  intro n
  induction n with
  | zero =>
    intro ptr maxAmp h0 h1 res h
    simp only [computeMaxAmplitude.channelLoop, Except.ok.injEq] at h
    subst h
    exact ⟨h0, h1⟩
  | succ n ih =>
    intro ptr maxAmp h0 h1 res h
    rw [computeMaxAmplitude.channelLoop] at h
    split at h
    · split at h
      · cases h
      · simp only [Except.ok.injEq] at h
        subst h
        rfl
      · rename_i sample width hs
        have hb := (computeMaxAmplitude.sample_le_one hs).1
        refine ih _ _ ?_ ?_ res h
        · split
          · rename_i hgt
            exact le_of_lt (lt_of_le_of_lt h0 hgt)
          · exact h0
        · split
          · exact hb
          · exact h1
    · simp only [Except.ok.injEq] at h
      subst h
      exact ⟨h0, h1⟩

/-- The outer loop keeps the running maximum inside `[0, 1]`. -/
theorem computeMaxAmplitude.whileLoop_range (buffer : List Byte) (bps channels end_ : Nat) :
    ∀ (fuel ptr : Nat) (maxAmp : ℚ), 0 ≤ maxAmp → maxAmp ≤ 1 →
      ∀ r, computeMaxAmplitude.whileLoop buffer bps channels end_ fuel ptr maxAmp = .ok r →
        0 ≤ r ∧ r ≤ 1 := by
  intro fuel
  induction fuel with
  | zero =>
    intro ptr maxAmp _ _ r h
    simp [computeMaxAmplitude.whileLoop] at h
  | succ fuel ih =>
    intro ptr maxAmp h0 h1 r h
    rw [computeMaxAmplitude.whileLoop] at h
    split at h
    · split at h
      · cases h
      · rename_i r0 hc
        simp only [Except.ok.injEq] at h
        subst h
        have := computeMaxAmplitude.channelLoop_range buffer bps end_ channels ptr maxAmp h0 h1 _ hc
        simp only at this
        subst this
        exact ⟨le_refl _, zero_le_one⟩
      · rename_i p m hc
        have := computeMaxAmplitude.channelLoop_range buffer bps end_ channels ptr maxAmp h0 h1 _ hc
        exact ih p m this.1 this.2 r h
    · simp only [Except.ok.injEq] at h
      subst h
      exact ⟨h0, h1⟩

/-- C4: whenever `computeMaxAmplitude` returns, on any format descriptor and any
data range, the amplitude it returns lies in `[0, 1]`; 32-bit data holding
`INT32_MIN` is included. -/
theorem computeMaxAmplitude_range (fuel : Nat) (buffer : List Byte) (data size fmt : Nat)
    (r : ℚ) (h : computeMaxAmplitude fuel buffer data size fmt = .ok r) : 0 ≤ r ∧ r ≤ 1 := by
  unfold computeMaxAmplitude at h
  cases h0 : FmtSubchunk.audioFormat buffer fmt with
  | error e => simp [h0, bind, Except.bind] at h
  | ok audioFormat =>
    simp only [h0, bind, Except.bind] at h
    split at h
    · simp only [pure, Except.pure, Except.ok.injEq] at h
      subst h
      exact ⟨le_refl _, zero_le_one⟩
    · cases h1 : FmtSubchunk.bitsPerSample buffer fmt with
      | error e => simp [h1] at h
      | ok bps =>
        cases h2 : FmtSubchunk.numChannels buffer fmt with
        | error e => simp [h1, h2] at h
        | ok channels =>
          simp only [h1, h2] at h
          exact computeMaxAmplitude.whileLoop_range buffer bps channels (data + size) fuel data 0
            (le_refl _) zero_le_one r h

/-- C4, at 32-bit data that holds `INT32_MIN` followed by `INT32_MAX`. -/
theorem computeMaxAmplitude_range_witness :
    computeMaxAmplitude 3 (pcmFile 1 32 8 [0, 0, 0, 0x80, 0xFF, 0xFF, 0xFF, 0x7F]) 44 8 20
        = .ok 1 ∧ ((0 : ℚ) ≤ 1 ∧ (1 : ℚ) ≤ 1) :=
  ⟨by decide!,
    computeMaxAmplitude_range 3 (pcmFile 1 32 8 [0, 0, 0, 0x80, 0xFF, 0xFF, 0xFF, 0x7F]) 44 8 20 1
      (by decide!)⟩

/-! ## Runs on the sample files -/

/-- C1 fails in the 24-bit tier: at unity gain the one-sample data `80 00 00`
(the value 128) is written back as `80 FF FF`, since the decode combines
sign-extended `char`s; the output differs from the input. -/
theorem unity_gain_24bit_changes_bytes :
    normalizeWav 2 (pcmFile 1 24 3 [0x80, 0x00, 0x00]) 1
        = .ok (some (pcmFile 1 24 3 [0x80, 0xFF, 0xFF]))
      ∧ pcmFile 1 24 3 [0x80, 0xFF, 0xFF] ≠ pcmFile 1 24 3 [0x80, 0x00, 0x00] := by
  constructor <;> decide!

/-- C2 fails for large gains: the rounded product is converted to `int` (to
`int64_t` in the 32-bit tier) before it is clamped, and the conversion has
no defined value once the product leaves that type.  The samples are positive
ones of the four tiers, 127, 32767, 8355711 and 2147483647. -/
theorem large_gain_overflows_before_clamp :
    normalizeWav.rescale castInt32 (-32768) 32767 32767 70000 = .error .overflow
      ∧ normalizeWav 2 (pcmFile 1 8 1 [0xFF]) 20000000 = .error .overflow
      ∧ normalizeWav 2 (pcmFile 1 16 2 [0xFF, 0x7F]) 70000 = .error .overflow
      ∧ normalizeWav 2 (pcmFile 1 24 3 [0x7F, 0x7F, 0x7F]) 300 = .error .overflow
      ∧ normalizeWav 2 (pcmFile 1 32 4 [0xFF, 0xFF, 0xFF, 0x7F]) 8589934592
          = .error .overflow := by
  refine ⟨?_, ?_, ?_, ?_, ?_⟩ <;> decide!

/-- C3 fails in the 24-bit tier: for the one sample `FF 00 00` (the value 255)
the analyser returns `1 / 8388608`, the true peak being `255 / 8388608`; and it
fails for the 32-bit sample `INT32_MIN`, where the analyser returns `0`. -/
theorem analyser_differs_from_true_peak :
    computeMaxAmplitude 2 (pcmFile 1 24 3 [0xFF, 0x00, 0x00]) 44 3 20 = .ok (1 / 8388608)
      ∧ Spec.peak 24 [0xFF, 0x00, 0x00] = 255 / 8388608
      ∧ computeMaxAmplitude 2 (pcmFile 1 32 4 [0x00, 0x00, 0x00, 0x80]) 44 4 20 = .ok 0
      ∧ Spec.peak 32 [0x00, 0x00, 0x00, 0x80] = 2147483648 / 2147483647 := by
  refine ⟨?_, ?_, ?_, ?_⟩ <;> decide!

/-- C5 fails for a data size that is no multiple of the sample width: in a 16-bit
file whose data chunk holds the one byte `FF` at offset 44, followed by the pad
byte `00`, gain 2 rewrites the pad byte at offset 45 to `01`. -/
theorem odd_data_size_rewrites_next_byte :
    normalizeWav.walk (pcmFile 1 16 1 [0xFF, 0x00]) 47 12 none = .ok ⟨some 20, some 44, 1⟩
      ∧ normalizeWav 2 (pcmFile 1 16 1 [0xFF, 0x00]) 2
          = .ok (some (pcmFile 1 16 1 [0xFE, 0x01]))
      ∧ (pcmFile 1 16 1 [0xFF, 0x00])[45]? = some 0
      ∧ (pcmFile 1 16 1 [0xFE, 0x01])[45]? = some 1 := by
  refine ⟨?_, ?_, ?_, ?_⟩ <;> decide!

/-- C6 fails as stated: a 16-bit file whose data chunk declares four bytes and
holds the two bytes `00 40` is given no amplitude at all, by `processWavFile` and
by the analysis pass of `main`, although the peak of the bytes present is
`1 / 2`. -/
theorem truncated_data_not_analysed :
    processWavFile 2 (pcmFile 1 16 4 [0x00, 0x40]) = .ok 0
      ∧ main.analysed 2 [("a.wav", pcmFile 1 16 4 [0x00, 0x40])] = .ok ⟨0, "", []⟩
      ∧ computeMaxAmplitude 2 (pcmFile 1 16 4 [0x00, 0x40]) 44 2 20 = .ok (1 / 2) := by
  refine ⟨?_, ?_, ?_⟩ <;> decide!

/-- C7 fails for an odd size in the 16-bit tier: with a data range of one byte
the analyser decodes that byte together with the byte after the range (the
result follows that byte), and it reads outside the buffer when the range ends
the file. -/
theorem analyser_reads_past_odd_size :
    computeMaxAmplitude 2 (pcmFile 1 16 1 [0x00, 0x40]) 44 1 20 = .ok (1 / 2)
      ∧ computeMaxAmplitude 2 (pcmFile 1 16 1 [0x00, 0x00]) 44 1 20 = .ok 0
      ∧ computeMaxAmplitude 2 (pcmFile 1 16 1 [0x00]) 44 1 20 = .error .outOfBounds := by
  refine ⟨?_, ?_, ?_⟩ <;> decide!

/-- C8 fails for a `fmt ` chunk that declares fewer than 16 bytes: in the 30-byte
file `shortFmtFile` the walk accepts the chunk with its payload at offset 20,
and the read of `bitsPerSample` at offsets 34..35 is outside the buffer, in
`processWavFile`, in the analysis pass of `main` and in `normalizeWav`. -/
theorem short_fmt_chunk_read_out_of_bounds :
    shortFmtFile.length = 30
      ∧ processWavFile.walk shortFmtFile 31 12 none = .ok ⟨some 20, some 30, 0⟩
      ∧ processWavFile 1 shortFmtFile = .error .outOfBounds
      ∧ main.analysed 1 [("a.wav", shortFmtFile)] = .error .outOfBounds
      ∧ normalizeWav 1 shortFmtFile 1 = .error .outOfBounds := by
  refine ⟨?_, ?_, ?_, ?_, ?_⟩ <;> decide!

/-- C10 fails: the analysis pass of `main` never looks at the tags.  The file
`rifxFile`, whose bytes 0..3 are `"RIFX"`, is given the amplitude `1 / 2`,
becomes the loudest file, and sets the gain 2 for a quieter well-formed file;
`processWavFile` and `normalizeWav` do reject it. -/
theorem bad_tag_file_becomes_loudest :
    matchTag rifxFile 0 tagRIFF = .ok false
      ∧ main.analysed 2 [("x.wav", rifxFile)]
          = .ok ⟨1 / 2, "x.wav", [("x.wav", 1 / 2)]⟩
      ∧ main.analysed 2 [("a.wav", pcmFile 1 16 2 [0x00, 0x20]), ("x.wav", rifxFile)]
          = .ok ⟨1 / 2, "x.wav", [("a.wav", 1 / 4), ("x.wav", 1 / 2)]⟩
      ∧ main.normalizeCalls ⟨1 / 2, "x.wav", [("a.wav", 1 / 4), ("x.wav", 1 / 2)]⟩
          = [("a.wav", 2)]
      ∧ processWavFile 2 rifxFile = .ok 0
      ∧ normalizeWav 2 rifxFile 2 = .ok none := by
  refine ⟨?_, ?_, ?_, ?_, ?_, ?_⟩ <;> decide!

/-! ## The three chunk walks -/

theorem main_walk_eq (buffer : List Byte) :
    ∀ fuel ptr fmt, main.walk buffer fuel ptr fmt = processWavFile.walk buffer fuel ptr fmt := by
  intro fuel
  induction fuel with
  | zero => intro ptr fmt; rfl
  | succ fuel ih =>
    intro ptr fmt
    simp only [main.walk, processWavFile.walk, ih]

theorem normalizeWav_walk_eq (buffer : List Byte) :
    ∀ fuel ptr fmt,
      normalizeWav.walk buffer fuel ptr fmt = processWavFile.walk buffer fuel ptr fmt := by
  intro fuel
  induction fuel with
  | zero => intro ptr fmt; rfl
  | succ fuel ih =>
    intro ptr fmt
    simp only [normalizeWav.walk, processWavFile.walk, ih]

theorem matchTag_ok_of_le (buffer : List Byte) (id : Nat) (tag : List Byte)
    (h : id + 4 ≤ buffer.length) : ∃ b, matchTag buffer id tag = .ok b := by
  unfold matchTag
  rw [if_pos h]
  exact ⟨_, rfl⟩

theorem matchTag_le {buffer : List Byte} {id : Nat} {tag : List Byte} {b : Bool}
    (h : matchTag buffer id tag = .ok b) : id + 4 ≤ buffer.length := by
  unfold matchTag at h
  split at h
  · assumption
  · cases h

theorem rdU8_le {buffer : List Byte} {p b : Nat} (h : rdU8 buffer p = .ok b) :
    p < buffer.length := by
  unfold rdU8 at h
  split at h
  · rename_i x hx
    by_contra hc
    rw [List.getElem?_eq_none (by omega)] at hx
    cases hx
  · cases h

theorem rdU32_le {buffer : List Byte} {p n : Nat} (h : rdU32 buffer p = .ok n) :
    p + 4 ≤ buffer.length := by
  unfold rdU32 at h
  cases h0 : rdU8 buffer p with
  | error e => simp [h0, bind, Except.bind] at h
  | ok b0 =>
    cases h1 : rdU8 buffer (p + 1) with
    | error e => simp [h0, h1, bind, Except.bind] at h
    | ok b1 =>
      cases h2 : rdU8 buffer (p + 2) with
      | error e => simp [h0, h1, h2, bind, Except.bind] at h
      | ok b2 =>
        cases h3 : rdU8 buffer (p + 3) with
        | error e => simp [h0, h1, h2, h3, bind, Except.bind] at h
        | ok b3 =>
          have := rdU8_le h3
          omega

theorem rdU8_ok_of_lt (buffer : List Byte) (p : Nat) (h : p < buffer.length) :
    ∃ b, rdU8 buffer p = .ok b := by
  unfold rdU8
  rw [List.getElem?_eq_getElem h]
  exact ⟨_, rfl⟩

theorem rdU32_ok_of_le (buffer : List Byte) (p : Nat) (h : p + 4 ≤ buffer.length) :
    ∃ n, rdU32 buffer p = .ok n := by
  obtain ⟨b0, h0⟩ := rdU8_ok_of_lt buffer p (by omega)
  obtain ⟨b1, h1⟩ := rdU8_ok_of_lt buffer (p + 1) (by omega)
  obtain ⟨b2, h2⟩ := rdU8_ok_of_lt buffer (p + 2) (by omega)
  obtain ⟨b3, h3⟩ := rdU8_ok_of_lt buffer (p + 3) (by omega)
  unfold rdU32
  simp only [h0, h1, h2, h3, bind, Except.bind, pure, Except.pure]
  exact ⟨_, rfl⟩

theorem nextChunk_bounds (chunkData size : Nat) :
    chunkData + size ≤ nextChunk chunkData size ∧ nextChunk chunkData size ≤ chunkData + size + 1 := by
  unfold nextChunk
  split <;> omega

/-- The chunk walk reads inside the buffer only and ends within its budget: from
any pointer it returns a result once the fuel covers the bytes that remain. -/
theorem processWavFile.walk_returns (buffer : List Byte) :
    ∀ (fuel ptr : Nat) (fmt : Option Nat), ptr ≤ buffer.length + 1 →
      buffer.length + 1 < ptr + 8 * fuel →
      ∃ w, processWavFile.walk buffer fuel ptr fmt = .ok w := by
  intro fuel
  induction fuel with
  | zero => intro ptr fmt h1 h2; omega
  | succ fuel ih =>
    intro ptr fmt h1 h2
    rw [processWavFile.walk]
    split
    · rename_i hle
      obtain ⟨size, hs⟩ := rdU32_ok_of_le buffer (ptr + 4) (by omega)
      obtain ⟨isFmt, hf⟩ := matchTag_ok_of_le buffer ptr tagFmt (by omega)
      obtain ⟨isData, hd⟩ := matchTag_ok_of_le buffer ptr tagData (by omega)
      simp only [hs, hf, hd]
      have hb := nextChunk_bounds (ptr + 8) size
      split
      · exact ⟨_, rfl⟩
      · split
        · exact ih _ _ (by omega) (by omega)
        · split
          · exact ⟨_, rfl⟩
          · exact ih _ _ (by omega) (by omega)
    · exact ⟨_, rfl⟩

/-- The walk of a whole file, as the three functions start it, always returns. -/
theorem processWavFile.walk_total (buffer : List Byte) (fmt : Option Nat) :
    ∃ w, processWavFile.walk buffer (buffer.length + 1) 12 fmt = .ok w := by
  by_cases h : 12 ≤ buffer.length + 1
  · exact processWavFile.walk_returns buffer _ 12 fmt h (by omega)
  · rw [processWavFile.walk]
    have : ¬ (12 + 8 ≤ buffer.length) := by omega
    simp only [this, if_false]
    exact ⟨_, rfl⟩

/-- The walk over a file that starts with a `fmt ` chunk of `n` bytes followed by
a `data` chunk header whose declared size `sz` runs past the end of the buffer:
the format pointer is set and the data pointer stays null. -/
theorem processWavFile.walk_truncated {buffer : List Byte} {n sz : Nat}
    (hfmt : matchTag buffer 12 tagFmt = .ok true) (hn : rdU32 buffer 16 = .ok n)
    (hdata : matchTag buffer (nextChunk 20 n) tagData = .ok true)
    (hsz : rdU32 buffer (nextChunk 20 n + 4) = .ok sz)
    (htrunc : buffer.length < nextChunk 20 n + 8 + sz) :
    processWavFile.walk buffer (buffer.length + 1) 12 none = .ok ⟨some 20, none, 0⟩ := by
  have hq : 20 + n ≤ nextChunk 20 n := by unfold nextChunk; split <;> omega
  have hlen := rdU32_le hsz
  obtain ⟨k, hk⟩ : ∃ k, buffer.length + 1 = k + 2 := ⟨buffer.length - 1, by omega⟩
  obtain ⟨b1, hb1⟩ := matchTag_ok_of_le buffer 12 tagData (by omega)
  obtain ⟨b2, hb2⟩ := matchTag_ok_of_le buffer (nextChunk 20 n) tagFmt (by omega)
  rw [hk, processWavFile.walk]
  have e1 : (12 : Nat) + 8 ≤ buffer.length := by omega
  have e2 : ¬ ((12 : Nat) + 8 + n > buffer.length) := by omega
  simp only [e1, if_true, hn, hfmt, hb1, e2, if_false]
  rw [processWavFile.walk]
  have e3 : nextChunk 20 n + 8 ≤ buffer.length := by omega
  have e4 : nextChunk 20 n + 8 + sz > buffer.length := by omega
  simp only [e3, if_true, hsz, hdata, hb2, e4]

/-- C6, as amended: in a buffer with matching RIFF and WAVE tags, a `fmt ` chunk
of `n` bytes at offset 12 and after it a `data` chunk header whose declared size
`sz` is more than the bytes that remain, the walk stops at that header without
a data range, so the file counts as having no audio: `processWavFile` returns
`0` and the analysis pass of `main` leaves its variables as they were. -/
theorem truncated_data_chunk_no_audio (fuel : Nat) (buffer : List Byte) (n sz : Nat)
    (st : Batch) (path : String)
    (hriff : matchTag buffer 0 tagRIFF = .ok true) (hwave : matchTag buffer 8 tagWAVE = .ok true)
    (hfmt : matchTag buffer 12 tagFmt = .ok true) (hn : rdU32 buffer 16 = .ok n)
    (hdata : matchTag buffer (nextChunk 20 n) tagData = .ok true)
    (hsz : rdU32 buffer (nextChunk 20 n + 4) = .ok sz)
    (htrunc : buffer.length < nextChunk 20 n + 8 + sz) :
    processWavFile fuel buffer = .ok 0 ∧ main.analyse fuel st path buffer = .ok st := by
  have hw := processWavFile.walk_truncated hfmt hn hdata hsz htrunc
  have hlen := rdU32_le hn
  constructor
  · unfold processWavFile
    have e : ¬ buffer.length < 12 := by omega
    simp only [e, if_false, hriff, hwave, hw]
    rfl
  · unfold main.analyse
    simp only [main_walk_eq, hw]

/-- C6, as amended, at the 16-bit file that declares four data bytes and holds
two. -/
theorem truncated_data_chunk_no_audio_witness :
    processWavFile 2 (pcmFile 1 16 4 [0x00, 0x40]) = .ok 0 ∧
      main.analyse 2 ⟨1 / 4, "a.wav", [("a.wav", 1 / 4)]⟩ "b.wav" (pcmFile 1 16 4 [0x00, 0x40])
        = .ok ⟨1 / 4, "a.wav", [("a.wav", 1 / 4)]⟩ :=
  truncated_data_chunk_no_audio 2 (pcmFile 1 16 4 [0x00, 0x40]) 16 4
    ⟨1 / 4, "a.wav", [("a.wav", 1 / 4)]⟩ "b.wav" (by decide!) (by decide!) (by decide!)
    (by decide!) (by decide!) (by decide!) (by decide!)

/-! ## The batch -/

theorem mapAssign_mem {m : List (String × ℚ)} {k : String} {v : ℚ} {x : String × ℚ}
    (h : x ∈ mapAssign m k v) : x = (k, v) ∨ x ∈ m := by
  induction m with
  | nil =>
    simp only [mapAssign, List.mem_singleton] at h
    exact Or.inl h
  | cons e rest ih =>
    obtain ⟨k0, v0⟩ := e
    simp only [mapAssign] at h
    split at h
    · rcases List.mem_cons.1 h with h | h
      · exact Or.inl h
      · exact Or.inr (List.mem_cons_of_mem _ h)
    · split at h
      · rcases List.mem_cons.1 h with h | h
        · exact Or.inl h
        · exact Or.inr h
      · rcases List.mem_cons.1 h with h | h
        · exact Or.inr (h ▸ List.mem_cons_self _ _)
        · rcases ih h with h | h
          · exact Or.inl h
          · exact Or.inr (List.mem_cons_of_mem _ h)

/-- One step of the analysis keeps `main.Sound`. -/
theorem main.analyse_keeps_sound {fuel : Nat} {files : List (String × List Byte)} {st st1 : Batch}
    {path : String} {buffer : List Byte} (hmem : (path, buffer) ∈ files)
    (hs : main.Sound fuel files st) (h : main.analyse fuel st path buffer = .ok st1) :
    main.Sound fuel files st1 := by
  unfold main.analyse at h
  split at h
  · cases h
  · rename_i w hw
    split at h
    · rename_i fmt dataPtr hf hd
      split at h
      · cases h
      · rename_i amp hamp
        have hm : main.Measured fuel buffer amp := ⟨w, fmt, dataPtr, hw, hf, hd, hamp⟩
        obtain ⟨h0, hl, hmap⟩ := hs
        have hmap1 : ∀ p a, (p, a) ∈ mapAssign st.fileAmplitudes path amp →
            ∃ b, (p, b) ∈ files ∧ main.Measured fuel b a := by
          intro p a hpa
          rcases mapAssign_mem hpa with e | e
          · cases e
            exact ⟨buffer, hmem, hm⟩
          · exact hmap p a e
        simp only [] at h
        split at h
        · rename_i hgt
          cases h
          have hpos : 0 < amp := lt_of_le_of_lt h0 hgt
          exact ⟨le_of_lt hpos, Or.inr ⟨buffer, hmem, hm, hpos⟩, hmap1⟩
        · cases h
          exact ⟨h0, hl, hmap1⟩
    · cases h
      exact hs

/-- The analysis pass keeps `main.Sound`. -/
theorem main.analysisPass_sound {fuel : Nat} {files : List (String × List Byte)} :
    ∀ (l : List (String × List Byte)) (st st1 : Batch), (∀ x ∈ l, x ∈ files) →
      main.Sound fuel files st → main.analysisPass fuel st l = .ok st1 →
      main.Sound fuel files st1 := by
  intro l
  induction l with
  | nil =>
    intro st st1 _ hs h
    simp only [main.analysisPass, Except.ok.injEq] at h
    exact h ▸ hs
  | cons e rest ih =>
    intro st st1 hsub hs h
    obtain ⟨path, buffer⟩ := e
    simp only [main.analysisPass] at h
    split at h
    · cases h
    · rename_i st2 h2
      exact ih st2 st1 (fun x hx => hsub x (List.mem_cons_of_mem _ hx))
        (main.analyse_keeps_sound (hsub _ (List.mem_cons_self _ _)) hs h2) h

theorem main.analysed_sound {fuel : Nat} {files : List (String × List Byte)} {st : Batch}
    (h : main.analysed fuel files = .ok st) : main.Sound fuel files st :=
  main.analysisPass_sound files _ st (fun _ hx => hx)
    ⟨le_refl _, Or.inl rfl, fun _ _ hpa => absurd hpa (List.not_mem_nil _)⟩ h

/-- Every call of the second loop goes to a path whose entry in the map is
neither `0` nor `globalMax`, with the gain `globalMax / amp`. -/
theorem main.mem_normalizeCalls {st : Batch} {p : String} {g : ℚ}
    (h : (p, g) ∈ main.normalizeCalls st) :
    ∃ a, (p, a) ∈ st.fileAmplitudes ∧ a ≠ 0 ∧ a ≠ st.globalMax ∧ g = st.globalMax / a := by
  unfold main.normalizeCalls at h
  rw [List.mem_map] at h
  obtain ⟨e, he, heq⟩ := h
  rw [List.mem_filter] at he
  obtain ⟨hin, hk⟩ := he
  obtain ⟨p0, a0⟩ := e
  simp only [Prod.mk.injEq] at heq
  obtain ⟨hp, hg⟩ := heq
  subst hp
  simp only [Bool.not_eq_true', Bool.or_eq_false_iff, decide_eq_false_iff_not] at hk
  exact ⟨a0, hin, hk.1, hk.2, hg.symm⟩

theorem computeMaxAmplitude_nonPCM (fuel : Nat) (buffer : List Byte) (data size fmt a : Nat)
    (ha : FmtSubchunk.audioFormat buffer fmt = .ok a) (hne : a ≠ 1) :
    computeMaxAmplitude fuel buffer data size fmt = .ok 0 := by
  unfold computeMaxAmplitude
  simp only [ha, bind, Except.bind, ne_eq, hne, not_false_eq_true, if_true]
  rfl

/-- C9: on a format descriptor whose audioFormat is not 1, `computeMaxAmplitude`
returns `0` for every data range, channel count and bit depth; and after the
analysis pass over a directory in which `path` names one file, of that kind, that
file is not the loudest file and the second loop makes no call of `normalizeWav`
on it. -/
theorem nonPCM_amplitude_zero_and_excluded (fuel : Nat) (buffer : List Byte)
    (data size fmt a : Nat) (files : List (String × List Byte)) (st : Batch) (path : String)
    (w : Walk) (ha : FmtSubchunk.audioFormat buffer fmt = .ok a) (hne : a ≠ 1) :
    computeMaxAmplitude fuel buffer data size fmt = .ok 0 ∧
      (main.analysed fuel files = .ok st → (∀ b, (path, b) ∈ files → b = buffer) →
        main.walk buffer (buffer.length + 1) 12 none = .ok w → w.fmt = some fmt → path ≠ "" →
        st.loudestFile ≠ path ∧ ∀ g, (path, g) ∉ main.normalizeCalls st) := by
  refine ⟨computeMaxAmplitude_nonPCM fuel buffer data size fmt a ha hne, ?_⟩
  intro hrun huniq hw hf hpath
  have hzero : ∀ b amp, (path, b) ∈ files → main.Measured fuel b amp → amp = 0 := by
    intro b amp hb hm
    have hb2 := huniq b hb
    subst hb2
    obtain ⟨w1, fmt1, dataPtr1, hw1, hf1, _, hamp⟩ := hm
    rw [hw] at hw1
    cases hw1
    rw [hf] at hf1
    cases hf1
    rw [computeMaxAmplitude_nonPCM fuel b dataPtr1 w.dataSize fmt a ha hne] at hamp
    cases hamp
    rfl
  obtain ⟨_, hl, hmap⟩ := main.analysed_sound hrun
  constructor
  · intro heq
    rcases hl with hl | ⟨b, hb, hm, hpos⟩
    · exact hpath (heq ▸ hl)
    · rw [heq] at hb
      have := hzero b _ hb hm
      rw [this] at hpos
      exact lt_irrefl _ hpos
  · intro g hg
    obtain ⟨a0, hin, hne0, _, _⟩ := main.mem_normalizeCalls hg
    obtain ⟨b, hb, hm⟩ := hmap path a0 hin
    exact hne0 (hzero b a0 hb hm)

/-- C9, at a directory of a 16-bit PCM file and the float file `floatFile`. -/
theorem nonPCM_amplitude_zero_and_excluded_witness :
    computeMaxAmplitude 2 floatFile 44 4 20 = .ok 0 ∧
      (⟨1 / 4, "a.wav", [("a.wav", 1 / 4), ("f.wav", 0)]⟩ : Batch).loudestFile ≠ "f.wav" ∧
      ∀ g, ("f.wav", g) ∉
        main.normalizeCalls ⟨1 / 4, "a.wav", [("a.wav", 1 / 4), ("f.wav", 0)]⟩ :=
  have h := nonPCM_amplitude_zero_and_excluded 2 floatFile 44 4 20 3
    [("a.wav", pcmFile 1 16 2 [0x00, 0x20]), ("f.wav", floatFile)]
    ⟨1 / 4, "a.wav", [("a.wav", 1 / 4), ("f.wav", 0)]⟩ "f.wav" ⟨some 20, some 44, 4⟩
    (by decide!) (by decide)
  ⟨h.1, h.2 (by decide!) (by intro b hb; simpa using hb) (by decide!) rfl (by decide)⟩

/-! ## The frame of the rewrite -/

theorem bind_eq_ok {α β : Type} (x : Except Fault α) (f : α → Except Fault β) (b : β) :
    (x >>= f) = .ok b ↔ ∃ a, x = .ok a ∧ f a = .ok b := by
  cases x <;> simp [bind, Except.bind]

theorem wrU8_frame {buffer out : List Byte} {p : Nat} {z : Int}
    (h : wrU8 buffer p z = .ok out) :
    out.length = buffer.length ∧ ∀ i, i ≠ p → out[i]? = buffer[i]? := by
  unfold wrU8 at h
  split at h
  · cases h
    exact ⟨List.length_set _ _ _, fun i hi => List.getElem?_set_ne (Ne.symm hi)⟩
  · cases h

theorem wrI16_frame {buffer out : List Byte} {p : Nat} {z : Int}
    (h : wrI16 buffer p z = .ok out) :
    out.length = buffer.length ∧ ∀ i, (i < p ∨ p + 2 ≤ i) → out[i]? = buffer[i]? := by
  unfold wrI16 at h
  rw [bind_eq_ok] at h
  obtain ⟨b1, h1, h2⟩ := h
  have f1 := wrU8_frame h1
  have f2 := wrU8_frame h2
  refine ⟨f2.1.trans f1.1, fun i hi => ?_⟩
  rw [f2.2 i (by omega), f1.2 i (by omega)]

theorem wrI32_frame {buffer out : List Byte} {p : Nat} {z : Int}
    (h : wrI32 buffer p z = .ok out) :
    out.length = buffer.length ∧ ∀ i, (i < p ∨ p + 4 ≤ i) → out[i]? = buffer[i]? := by
  unfold wrI32 at h
  simp only [bind_eq_ok] at h
  obtain ⟨b1, h1, b2, h2, b3, h3, h4⟩ := h
  have f1 := wrU8_frame h1
  have f2 := wrU8_frame h2
  have f3 := wrU8_frame h3
  have f4 := wrU8_frame h4
  refine ⟨f4.1.trans (f3.1.trans (f2.1.trans f1.1)), fun i hi => ?_⟩
  rw [f4.2 i (by omega), f3.2 i (by omega), f2.2 i (by omega), f1.2 i (by omega)]

/-- One rewritten sample keeps the length of the buffer and every byte outside
the `width` bytes at `audioPtr`; the width is that of the tier (none above 32
bits). -/
theorem normalizeWav.sample_frame {buffer out : List Byte} {bps audioPtr width : Nat}
    {gainFactor : ℚ}
    (h : normalizeWav.sample buffer bps audioPtr gainFactor = .ok (out, width)) :
    out.length = buffer.length ∧
      (∀ i, (i < audioPtr ∨ audioPtr + width ≤ i) → out[i]? = buffer[i]?) ∧
      width = (if bps ≤ 32 then Spec.width bps else 0) := by
  unfold normalizeWav.sample at h
  unfold Spec.width
  split at h
  · rename_i h8
    simp only [bind_eq_ok, pure, Except.pure, Except.ok.injEq, Prod.mk.injEq] at h
    obtain ⟨val, _, s, _, b1, h1, hb, hw⟩ := h
    subst hb hw
    have f1 := wrU8_frame h1
    have : bps ≤ 32 := by omega
    simp only [this, h8, if_true]
    exact ⟨f1.1, fun i hi => f1.2 i (by omega), trivial⟩
  · rename_i h8
    split at h
    · rename_i h16
      simp only [bind_eq_ok, pure, Except.pure, Except.ok.injEq, Prod.mk.injEq] at h
      obtain ⟨val, _, s, _, b1, h1, hb, hw⟩ := h
      subst hb hw
      have f1 := wrI16_frame h1
      have : bps ≤ 32 := by omega
      simp only [this, h8, h16, if_true, if_false]
      exact ⟨f1.1, f1.2, trivial⟩
    · rename_i h16
      split at h
      · rename_i h24
        simp only [bind_eq_ok, pure, Except.pure, Except.ok.injEq, Prod.mk.injEq] at h
        obtain ⟨val, _, s, _, b1, h1, b2, h2, b3, h3, hb, hw⟩ := h
        subst hb hw
        have f1 := wrU8_frame h1
        have f2 := wrU8_frame h2
        have f3 := wrU8_frame h3
        have : bps ≤ 32 := by omega
        simp only [this, h8, h16, h24, if_true, if_false]
        refine ⟨f3.1.trans (f2.1.trans f1.1), fun i hi => ?_, trivial⟩
        rw [f3.2 i (by omega), f2.2 i (by omega), f1.2 i (by omega)]
      · rename_i h24
        split at h
        · rename_i h32
          simp only [bind_eq_ok, pure, Except.pure, Except.ok.injEq, Prod.mk.injEq] at h
          obtain ⟨val, _, s, _, b1, h1, hb, hw⟩ := h
          subst hb hw
          have f1 := wrI32_frame h1
          simp only [h32, h8, h16, h24, if_true, if_false]
          exact ⟨f1.1, f1.2, trivial⟩
        · rename_i h32
          simp only [pure, Except.pure, Except.ok.injEq, Prod.mk.injEq] at h
          obtain ⟨hb, hw⟩ := h
          subst hb hw
          simp [h32]

theorem Spec.width_pos (bps : Nat) : 0 < Spec.width bps := by
  unfold Spec.width
  split
  · omega
  · split
    · omega
    · split <;> omega

theorem normalizeWav.channelLoop_length (bps audioEnd : Nat) (gainFactor : ℚ) :
    ∀ (n audioPtr : Nat) (buffer : List Byte) (res : Nat × List Byte),
      normalizeWav.channelLoop bps audioEnd gainFactor n audioPtr buffer = .ok res →
      res.2.length = buffer.length := by
  intro n
  induction n with
  | zero =>
    intro p buffer res h
    simp only [normalizeWav.channelLoop, Except.ok.injEq] at h
    subst h
    rfl
  | succ n ih =>
    intro p buffer res h
    rw [normalizeWav.channelLoop] at h
    split at h
    · split at h
      · cases h
      · rename_i b1 w hs
        rw [ih _ _ _ h]
        exact (normalizeWav.sample_frame hs).1
    · simp only [Except.ok.injEq] at h
      subst h
      rfl

theorem normalizeWav.whileLoop_length (bps channels audioEnd : Nat) (gainFactor : ℚ) :
    ∀ (fuel audioPtr : Nat) (buffer out : List Byte),
      normalizeWav.whileLoop bps channels audioEnd gainFactor fuel audioPtr buffer = .ok out →
      out.length = buffer.length := by
  intro fuel
  induction fuel with
  | zero =>
    intro p buffer out h
    simp [normalizeWav.whileLoop] at h
  | succ fuel ih =>
    intro p buffer out h
    rw [normalizeWav.whileLoop] at h
    split at h
    · split at h
      · cases h
      · rename_i p1 b1 hc
        rw [ih _ _ _ h]
        exact normalizeWav.channelLoop_length bps audioEnd gainFactor channels p buffer _ hc
    · simp only [Except.ok.injEq] at h
      subst h
      rfl

/-- Whatever `normalizeWav` writes has the length of its input. -/
theorem normalizeWav_length {fuel : Nat} {buffer out : List Byte} {gainFactor : ℚ}
    (h : normalizeWav fuel buffer gainFactor = .ok (some out)) : out.length = buffer.length := by
  unfold normalizeWav at h
  split at h
  · cases h
  · split at h
    · split at h
      · cases h
      · split at h
        · cases h
        · split at h
          · split at h
            · cases h
            · rename_i out1 ha
              simp only [Except.ok.injEq, Option.some.injEq] at h
              subst h
              unfold normalizeWav.apply at ha
              simp only [bind_eq_ok] at ha
              obtain ⟨bps, _, channels, _, hl⟩ := ha
              exact normalizeWav.whileLoop_length _ _ _ _ _ _ _ _ hl
          · cases h
    · cases h

/-- The channel loop over a range that ends on a sample boundary touches no byte
before the pointer it starts from and none from `audioEnd` on, and it stops on a
sample boundary. -/
theorem normalizeWav.channelLoop_frame (bps audioEnd : Nat) (gainFactor : ℚ) :
    ∀ (n audioPtr : Nat) (buffer : List Byte) (res : Nat × List Byte),
      normalizeWav.channelLoop bps audioEnd gainFactor n audioPtr buffer = .ok res →
      audioPtr ≤ audioEnd → (bps ≤ 32 → Spec.width bps ∣ audioEnd - audioPtr) →
      (∀ i, (i < audioPtr ∨ audioEnd ≤ i) → res.2[i]? = buffer[i]?) ∧
        audioPtr ≤ res.1 ∧ res.1 ≤ audioEnd ∧ (bps ≤ 32 → Spec.width bps ∣ audioEnd - res.1) := by
  intro n
  induction n with
  | zero =>
    intro p buffer res h hle hdiv
    simp only [normalizeWav.channelLoop, Except.ok.injEq] at h
    subst h
    exact ⟨fun _ _ => rfl, le_refl _, hle, hdiv⟩
  | succ n ih =>
    intro p buffer res h hle hdiv
    rw [normalizeWav.channelLoop] at h
    split at h
    · rename_i hlt
      split at h
      · cases h
      · rename_i b1 w hs
        obtain ⟨_, hfr, hw⟩ := normalizeWav.sample_frame hs
        have hstep : p + w ≤ audioEnd ∧ (bps ≤ 32 → Spec.width bps ∣ audioEnd - (p + w)) := by
          by_cases h32 : bps ≤ 32
          · rw [if_pos h32] at hw
            have hd := hdiv h32
            have hpos := Spec.width_pos bps
            have hge : Spec.width bps ≤ audioEnd - p := Nat.le_of_dvd (by omega) hd
            refine ⟨by omega, fun _ => ?_⟩
            have e : audioEnd - (p + w) = (audioEnd - p) - Spec.width bps := by omega
            rw [e]
            exact Nat.dvd_sub' hd (dvd_refl _)
          · rw [if_neg h32] at hw
            exact ⟨by omega, fun h => absurd h h32⟩
        obtain ⟨r1, r2, r3, r4⟩ := ih _ _ _ h hstep.1 hstep.2
        refine ⟨fun i hi => ?_, by omega, r3, r4⟩
        rw [r1 i (by omega), hfr i (by omega)]
    · simp only [Except.ok.injEq] at h
      subst h
      exact ⟨fun _ _ => rfl, le_refl _, hle, hdiv⟩

theorem normalizeWav.whileLoop_frame (bps channels audioEnd : Nat) (gainFactor : ℚ) :
    ∀ (fuel audioPtr : Nat) (buffer out : List Byte),
      normalizeWav.whileLoop bps channels audioEnd gainFactor fuel audioPtr buffer = .ok out →
      audioPtr ≤ audioEnd → (bps ≤ 32 → Spec.width bps ∣ audioEnd - audioPtr) →
      ∀ i, (i < audioPtr ∨ audioEnd ≤ i) → out[i]? = buffer[i]? := by
  intro fuel
  induction fuel with
  | zero =>
    intro p buffer out h
    simp [normalizeWav.whileLoop] at h
  | succ fuel ih =>
    intro p buffer out h hle hdiv i hi
    rw [normalizeWav.whileLoop] at h
    split at h
    · split at h
      · cases h
      · rename_i p1 b1 hc
        obtain ⟨r1, r2, r3, r4⟩ :=
          normalizeWav.channelLoop_frame bps audioEnd gainFactor channels p buffer _ hc hle hdiv
        rw [ih _ _ _ h r3 r4 i (by simp only at r2; omega), r1 i hi]
    · simp only [Except.ok.injEq] at h
      subst h
      rfl

/-- The frame of `normalizeWav` on a data range that holds whole samples: the
output has the length of the input and differs from it inside the data range
only. -/
theorem normalizeWav_frame_of_whole_samples {fuel : Nat} {buffer out : List Byte}
    {gainFactor : ℚ} (h : normalizeWav fuel buffer gainFactor = .ok (some out)) :
    ∃ w fmt dataPtr bps, normalizeWav.walk buffer (buffer.length + 1) 12 none = .ok w ∧
      w.fmt = some fmt ∧ w.dataPtr = some dataPtr ∧
      FmtSubchunk.bitsPerSample buffer fmt = .ok bps ∧ out.length = buffer.length ∧
      ((bps ≤ 32 → Spec.width bps ∣ w.dataSize) →
        ∀ i, (i < dataPtr ∨ dataPtr + w.dataSize ≤ i) → out[i]? = buffer[i]?) := by
  have hlen := normalizeWav_length h
  unfold normalizeWav at h
  split at h
  · cases h
  · split at h
    · split at h
      · cases h
      · split at h
        · cases h
        · rename_i w hw
          split at h
          · rename_i fmt dataPtr hf hd
            split at h
            · cases h
            · rename_i out1 ha
              simp only [Except.ok.injEq, Option.some.injEq] at h
              subst h
              unfold normalizeWav.apply at ha
              simp only [bind_eq_ok] at ha
              obtain ⟨bps, hb, channels, _, hl⟩ := ha
              refine ⟨w, fmt, dataPtr, bps, hw, hf, hd, hb, hlen, fun hdiv i hi => ?_⟩
              refine normalizeWav.whileLoop_frame _ _ _ _ _ _ _ _ hl (by omega) ?_ i hi
              intro h32
              have e : dataPtr + w.dataSize - dataPtr = w.dataSize := by omega
              rw [e]
              exact hdiv h32
          · cases h
    · cases h

/-! ## Unity gain -/

theorem cround_intCast_mul_one (v : Int) : cround ((v : ℚ) * 1) = v := by
  have hfl : ∀ x : ℚ, Rat.floor x = ⌊x⌋ := fun _ => rfl
  have hhalf : ⌊(1 / 2 : ℚ)⌋ = 0 := by
    rw [Int.floor_eq_iff]
    norm_num
  unfold cround
  rw [mul_one]
  split
  · rw [hfl, Int.floor_int_add, hhalf, add_zero]
  · have e : -(v : ℚ) = ((-v : Int) : ℚ) := by push_cast; rfl
    rw [hfl, e, Int.floor_int_add, hhalf, add_zero, neg_neg]

theorem normalizeWav.rescale_unity32 (lo hi v : Int) (h1 : lo ≤ v) (h2 : v ≤ hi)
    (h3 : -2147483648 ≤ v) (h4 : v ≤ 2147483647) :
    normalizeWav.rescale castInt32 lo hi v 1 = .ok v := by
  unfold normalizeWav.rescale castInt32 clamp
  rw [cround_intCast_mul_one]
  simp only [h3, h4, and_self, if_true, bind, Except.bind, pure, Except.pure]
  rw [if_neg (by omega), if_neg (by omega)]

theorem normalizeWav.rescale_unity64 (lo hi v : Int) (h1 : lo ≤ v) (h2 : v ≤ hi)
    (h3 : -9223372036854775808 ≤ v) (h4 : v ≤ 9223372036854775807) :
    normalizeWav.rescale castInt64 lo hi v 1 = .ok v := by
  unfold normalizeWav.rescale castInt64 clamp
  rw [cround_intCast_mul_one]
  simp only [h3, h4, and_self, if_true, bind, Except.bind, pure, Except.pure]
  rw [if_neg (by omega), if_neg (by omega)]

theorem rdU8_eq_ok {buffer : List Byte} {p val : Nat} (h : rdU8 buffer p = .ok val) :
    ∃ b : Byte, buffer[p]? = some b ∧ b.val = val := by
  unfold rdU8 at h
  split at h
  · rename_i b hb
    cases h
    exact ⟨b, hb, rfl⟩
  · cases h

/-- A store of the byte that is already there leaves the buffer as it is. -/
theorem wrU8_same {buffer : List Byte} {p : Nat} {b : Byte} {z : Int}
    (hb : buffer[p]? = some b) (hz : z % 256 = (b.val : Int)) : wrU8 buffer p z = .ok buffer := by
  have hp : p < buffer.length := by
    by_contra hc
    rw [List.getElem?_eq_none (by omega)] at hb
    cases hb
  unfold wrU8 bitsOf
  rw [if_pos hp]
  congr 1
  have e : (Fin.ofNat (z % 2 ^ 8).toNat : Byte) = b := by
    apply Fin.ext
    have : (z % 2 ^ 8).toNat = b.val := by
      have e8 : (2 : Int) ^ 8 = 256 := by norm_num
      rw [e8, hz]
      simp
    rw [this]
    simp [Fin.ofNat, Nat.mod_eq_of_lt b.isLt]
  rw [e]
  apply List.ext_getElem?
  intro i
  by_cases hi : p = i
  · subst hi
    rw [List.getElem?_set_self hp, hb]
  · rw [List.getElem?_set_ne hi]

/-- At unity gain the 8-, 16- and 32-bit tiers store a sample that lies inside the
buffer back as it was. -/
theorem normalizeWav.sample_unity (buffer : List Byte) (bps audioPtr : Nat)
    (htier : bps ≤ 16 ∨ (24 < bps ∧ bps ≤ 32))
    (hin : audioPtr + Spec.width bps ≤ buffer.length) :
    normalizeWav.sample buffer bps audioPtr 1 = .ok (buffer, Spec.width bps) := by
  unfold Spec.width at hin ⊢
  unfold normalizeWav.sample
  by_cases h8 : bps ≤ 8
  · simp only [h8, if_true] at hin ⊢
    obtain ⟨v0, r0⟩ := rdU8_ok_of_lt buffer audioPtr (by omega)
    obtain ⟨b0, g0, e0⟩ := rdU8_eq_ok r0
    have hb := b0.isLt
    have hr := normalizeWav.rescale_unity32 (-128) 127 ((v0 : Int) - 128)
      (by omega) (by omega) (by omega) (by omega)
    have hw := wrU8_same (z := (v0 : Int) - 128 + 128) g0 (by omega)
    simp only [r0, hr, hw, bind, Except.bind, pure, Except.pure]
  · by_cases h16 : bps ≤ 16
    · simp only [h8, h16, if_true, if_false] at hin ⊢
      obtain ⟨v0, r0⟩ := rdU8_ok_of_lt buffer audioPtr (by omega)
      obtain ⟨b0, g0, e0⟩ := rdU8_eq_ok r0
      obtain ⟨v1, r1⟩ := rdU8_ok_of_lt buffer (audioPtr + 1) (by omega)
      obtain ⟨b1, g1, e1⟩ := rdU8_eq_ok r1
      have hb0 := b0.isLt
      have hb1 := b1.isLt
      have hs := asSigned16_range (n := v0 + 256 * v1) (by omega)
      have hr := normalizeWav.rescale_unity32 (-32768) 32767
        (asSigned 16 (v0 + 256 * v1)) hs.1 hs.2 (by omega) (by omega)
      have hw0 := wrU8_same (z := asSigned 16 (v0 + 256 * v1)) g0
        (by unfold asSigned; split <;> omega)
      have hw1 := wrU8_same (z := asSigned 16 (v0 + 256 * v1) / 256) g1
        (by unfold asSigned; split <;> omega)
      simp only [rdI16, rdU16, wrI16, r0, r1, hr, hw0, hw1, bind, Except.bind, pure, Except.pure]
    · have h24 : ¬ bps ≤ 24 := by omega
      have h32 : bps ≤ 32 := by omega
      simp only [h8, h16, h24, h32, if_true, if_false] at hin ⊢
      obtain ⟨v0, r0⟩ := rdU8_ok_of_lt buffer audioPtr (by omega)
      obtain ⟨b0, g0, e0⟩ := rdU8_eq_ok r0
      obtain ⟨v1, r1⟩ := rdU8_ok_of_lt buffer (audioPtr + 1) (by omega)
      obtain ⟨b1, g1, e1⟩ := rdU8_eq_ok r1
      obtain ⟨v2, r2⟩ := rdU8_ok_of_lt buffer (audioPtr + 2) (by omega)
      obtain ⟨b2, g2, e2⟩ := rdU8_eq_ok r2
      obtain ⟨v3, r3⟩ := rdU8_ok_of_lt buffer (audioPtr + 3) (by omega)
      obtain ⟨b3, g3, e3⟩ := rdU8_eq_ok r3
      have hb0 := b0.isLt
      have hb1 := b1.isLt
      have hb2 := b2.isLt
      have hb3 := b3.isLt
      have hs := asSigned32_range (n := v0 + 256 * v1 + 65536 * v2 + 16777216 * v3) (by omega)
      have hr := normalizeWav.rescale_unity64 (-2147483648) 2147483647
        (asSigned 32 (v0 + 256 * v1 + 65536 * v2 + 16777216 * v3)) hs.1 hs.2
        (by omega) (by omega)
      have hw0 := wrU8_same (z := asSigned 32 (v0 + 256 * v1 + 65536 * v2 + 16777216 * v3)) g0
        (by unfold asSigned; split <;> omega)
      have hw1 := wrU8_same
        (z := asSigned 32 (v0 + 256 * v1 + 65536 * v2 + 16777216 * v3) / 256) g1
        (by unfold asSigned; split <;> omega)
      have hw2 := wrU8_same
        (z := asSigned 32 (v0 + 256 * v1 + 65536 * v2 + 16777216 * v3) / 65536) g2
        (by unfold asSigned; split <;> omega)
      have hw3 := wrU8_same
        (z := asSigned 32 (v0 + 256 * v1 + 65536 * v2 + 16777216 * v3) / 16777216) g3
        (by unfold asSigned; split <;> omega)
      simp only [rdI32, rdU32, wrI32, r0, r1, r2, r3, hr, hw0, hw1, hw2, hw3, bind, Except.bind,
        pure, Except.pure]

theorem normalizeWav.channelLoop_unity (buffer : List Byte) (bps audioEnd : Nat)
    (htier : bps ≤ 16 ∨ (24 < bps ∧ bps ≤ 32)) (hend : audioEnd ≤ buffer.length) :
    ∀ (n audioPtr : Nat), audioPtr ≤ audioEnd → Spec.width bps ∣ audioEnd - audioPtr →
      ∃ p1, normalizeWav.channelLoop bps audioEnd 1 n audioPtr buffer = .ok (p1, buffer) ∧
        audioPtr ≤ p1 ∧ p1 ≤ audioEnd ∧ Spec.width bps ∣ audioEnd - p1 ∧
        (0 < n → audioPtr < audioEnd → audioPtr < p1) := by
  intro n
  induction n with
  | zero =>
    intro p hle hdiv
    exact ⟨p, rfl, le_refl _, hle, hdiv, fun h => absurd h (lt_irrefl _)⟩
  | succ n ih =>
    intro p hle hdiv
    rw [normalizeWav.channelLoop]
    by_cases hlt : p < audioEnd
    · have hpos := Spec.width_pos bps
      have hge : Spec.width bps ≤ audioEnd - p := Nat.le_of_dvd (by omega) hdiv
      rw [if_pos hlt, normalizeWav.sample_unity buffer bps p htier (by omega)]
      have hdiv1 : Spec.width bps ∣ audioEnd - (p + Spec.width bps) := by
        have e : audioEnd - (p + Spec.width bps) = (audioEnd - p) - Spec.width bps := by omega
        rw [e]
        exact Nat.dvd_sub' hdiv (dvd_refl _)
      obtain ⟨p1, r1, r2, r3, r4, _⟩ := ih (p + Spec.width bps) (by omega) hdiv1
      exact ⟨p1, r1, by omega, r3, r4, fun _ _ => by omega⟩
    · rw [if_neg hlt]
      exact ⟨p, rfl, le_refl _, hle, hdiv, fun _ h => absurd h hlt⟩

theorem normalizeWav.whileLoop_unity (buffer : List Byte) (bps channels audioEnd : Nat)
    (htier : bps ≤ 16 ∨ (24 < bps ∧ bps ≤ 32)) (hend : audioEnd ≤ buffer.length)
    (hch : 0 < channels) :
    ∀ (fuel audioPtr : Nat), audioEnd - audioPtr < fuel → audioPtr ≤ audioEnd →
      Spec.width bps ∣ audioEnd - audioPtr →
      normalizeWav.whileLoop bps channels audioEnd 1 fuel audioPtr buffer = .ok buffer := by
  intro fuel
  induction fuel with
  | zero => intro p h; omega
  | succ fuel ih =>
    intro p hfuel hle hdiv
    rw [normalizeWav.whileLoop]
    by_cases hlt : p < audioEnd
    · obtain ⟨p1, r1, r2, r3, r4, r5⟩ :=
        normalizeWav.channelLoop_unity buffer bps audioEnd htier hend channels p hle hdiv
      have := r5 hch hlt
      rw [if_pos hlt, r1]
      exact ih p1 (by omega) r3 r4
    · rw [if_neg hlt]

/-- The data range a walk returns lies inside the buffer. -/
theorem processWavFile.walk_data_bounds (buffer : List Byte) :
    ∀ (fuel ptr : Nat) (fmt : Option Nat) (w : Walk),
      processWavFile.walk buffer fuel ptr fmt = .ok w →
      ∀ d, w.dataPtr = some d → d + w.dataSize ≤ buffer.length := by
  intro fuel
  induction fuel with
  | zero =>
    intro ptr fmt w h
    simp [processWavFile.walk] at h
  | succ fuel ih =>
    intro ptr fmt w h
    rw [processWavFile.walk] at h
    split at h
    · split at h
      · simp only [] at h
        split at h
        · cases h
          intro d hd
          cases hd
        · split at h
          · exact ih _ _ _ h
          · split at h
            · cases h
              intro d hd
              cases hd
              simp only []
              omega
            · exact ih _ _ _ h
      · cases h
    · cases h
      intro d hd
      cases hd

/-- Unity gain is lossless in the 8-, 16- and 32-bit tiers: on a file whose data
range holds whole samples, with at least one channel, `normalizeWav` with gain
`1` writes the input back byte for byte, once the fuel covers the data size. -/
theorem normalizeWav_unity_lossless (fuel : Nat) (buffer : List Byte) (w : Walk)
    (fmt dataPtr bps channels : Nat)
    (hriff : matchTag buffer 0 tagRIFF = .ok true) (hwave : matchTag buffer 8 tagWAVE = .ok true)
    (hw : normalizeWav.walk buffer (buffer.length + 1) 12 none = .ok w)
    (hf : w.fmt = some fmt) (hd : w.dataPtr = some dataPtr)
    (hb : FmtSubchunk.bitsPerSample buffer fmt = .ok bps)
    (hc : FmtSubchunk.numChannels buffer fmt = .ok channels)
    (htier : bps ≤ 16 ∨ (24 < bps ∧ bps ≤ 32)) (hch : 1 ≤ channels)
    (hdiv : Spec.width bps ∣ w.dataSize) (hfuel : w.dataSize < fuel) :
    normalizeWav fuel buffer 1 = .ok (some buffer) := by
  have hlen := matchTag_le hwave
  have hbound := processWavFile.walk_data_bounds buffer _ _ _ w
    (by rw [← normalizeWav_walk_eq]; exact hw) dataPtr hd
  have hloop := normalizeWav.whileLoop_unity buffer bps channels (dataPtr + w.dataSize) htier
    hbound (by omega) fuel dataPtr (by omega) (by omega)
    (by
      have e : dataPtr + w.dataSize - dataPtr = w.dataSize := by omega
      rw [e]
      exact hdiv)
  unfold normalizeWav
  have e : ¬ buffer.length < 12 := by omega
  simp only [e, if_false, hriff, hwave, hw, hf, hd, normalizeWav.apply, hb, hc, hloop, bind,
    Except.bind]
  rfl

/-- Unity gain on a 16-bit stereo file that holds one frame, `INT16_MIN` and
`INT16_MAX`. -/
theorem normalizeWav_unity_lossless_witness :
    normalizeWav 5 (pcmFile 2 16 4 [0x00, 0x80, 0xFF, 0x7F]) 1
      = .ok (some (pcmFile 2 16 4 [0x00, 0x80, 0xFF, 0x7F])) :=
  normalizeWav_unity_lossless 5 (pcmFile 2 16 4 [0x00, 0x80, 0xFF, 0x7F]) ⟨some 20, some 44, 4⟩
    20 44 16 2 (by decide!) (by decide!) (by decide!) rfl rfl (by decide!) (by decide!)
    (by decide) (by decide) (by decide!) (by decide)

/-! ## The analyser against the true peak -/

theorem Spec.samples_fuel (width : Nat) (hw : 0 < width) :
    ∀ (n m : Nat) (data : List Byte), data.length ≤ n → data.length ≤ m →
      Spec.samples width n data = Spec.samples width m data := by
  intro n
  induction n with
  | zero =>
    intro m data hn _
    have : data = [] := List.length_eq_zero.1 (by omega)
    subst this
    cases m with
    | zero => rfl
    | succ m => simp [Spec.samples]
  | succ n ih =>
    intro m data hn hm
    cases m with
    | zero =>
      have : data = [] := List.length_eq_zero.1 (by omega)
      subst this
      simp [Spec.samples]
    | succ m =>
      simp only [Spec.samples]
      split
      · rename_i hc
        have hl : (data.drop width).length = data.length - width := List.length_drop _ _
        rw [ih m (data.drop width) (by omega) (by omega)]
      · rfl

theorem Spec.peak_step (bps : Nat) (data : List Byte) (h : Spec.width bps ≤ data.length) :
    Spec.peak bps data
      = max (Spec.magnitude bps (data.take (Spec.width bps)))
          (Spec.peak bps (data.drop (Spec.width bps))) := by
  have hw := Spec.width_pos bps
  unfold Spec.peak
  obtain ⟨k, hk⟩ : ∃ k, data.length = k + 1 := ⟨data.length - 1, by omega⟩
  have hl : (data.drop (Spec.width bps)).length = data.length - Spec.width bps :=
    List.length_drop _ _
  rw [hk, Spec.samples, if_pos ⟨by omega, hw⟩,
    Spec.samples_fuel _ hw k (data.drop (Spec.width bps)).length _ (by omega) (le_refl _)]
  rfl

theorem Spec.peak_short (bps : Nat) (data : List Byte) (h : data.length < Spec.width bps) :
    Spec.peak bps data = 0 := by
  unfold Spec.peak
  cases hd : data.length with
  | zero => rfl
  | succ k =>
    rw [Spec.samples, if_neg (by omega)]
    rfl

theorem max_update (s m : ℚ) : (if s > m then s else m) = max m s := by
  rw [max_def]
  split
  · rename_i h
    rw [if_pos (le_of_lt h)]
  · rename_i h
    split
    · rename_i h2
      exact le_antisymm h2 (not_lt.1 h)
    · rfl

theorem take_one_of_getElem? {l : List Byte} {p : Nat} {b0 : Byte}
    (h0 : l[p]? = some b0) : (l.drop p).take 1 = [b0] := by
  obtain ⟨hp, e0⟩ := List.getElem?_eq_some_iff.1 h0
  rw [List.drop_eq_getElem_cons hp, e0]
  simp

theorem take_two_of_getElem? {l : List Byte} {p : Nat} {b0 b1 : Byte}
    (h0 : l[p]? = some b0) (h1 : l[p + 1]? = some b1) : (l.drop p).take 2 = [b0, b1] := by
  obtain ⟨hp0, e0⟩ := List.getElem?_eq_some_iff.1 h0
  obtain ⟨hp1, e1⟩ := List.getElem?_eq_some_iff.1 h1
  rw [List.drop_eq_getElem_cons hp0, List.drop_eq_getElem_cons hp1, e0, e1]
  simp

theorem slice_take (l : List Byte) (p e w : Nat) (h : p + w ≤ e) :
    ((l.drop p).take (e - p)).take w = (l.drop p).take w := by
  rw [List.take_take]
  congr 1
  omega

theorem slice_drop (l : List Byte) (p e w : Nat) :
    ((l.drop p).take (e - p)).drop w = (l.drop (p + w)).take (e - (p + w)) := by
  rw [List.drop_take, List.drop_drop]
  congr 1
  omega

/-- In the 8- and 16-bit tiers the analyser decodes, from a sample that lies
inside the buffer, the magnitude the specification defines. -/
theorem computeMaxAmplitude.sample_eq_magnitude (buffer : List Byte) (bps ptr : Nat)
    (htier : bps ≤ 16) (hin : ptr + Spec.width bps ≤ buffer.length) :
    computeMaxAmplitude.sample buffer bps ptr
      = .ok (some (Spec.magnitude bps ((buffer.drop ptr).take (Spec.width bps)),
          Spec.width bps)) := by
  unfold Spec.width at hin ⊢
  unfold computeMaxAmplitude.sample Spec.magnitude
  by_cases h8 : bps ≤ 8
  · simp only [h8, if_true] at hin ⊢
    obtain ⟨v0, r0⟩ := rdU8_ok_of_lt buffer ptr (by omega)
    obtain ⟨b0, g0, e0⟩ := rdU8_eq_ok r0
    have hb := b0.isLt
    have ha : abs32 ((v0 : Int) - 128) = |(v0 : Int) - 128| :=
      abs32_of_small (by rw [abs_lt]; omega)
    simp only [r0, bind, Except.bind, pure, Except.pure, take_one_of_getElem? g0, List.foldr,
      e0, ha, Nat.mul_zero, Nat.add_zero]
  · simp only [h8, htier, if_true, if_false] at hin ⊢
    obtain ⟨v0, r0⟩ := rdU8_ok_of_lt buffer ptr (by omega)
    obtain ⟨b0, g0, e0⟩ := rdU8_eq_ok r0
    obtain ⟨v1, r1⟩ := rdU8_ok_of_lt buffer (ptr + 1) (by omega)
    obtain ⟨b1, g1, e1⟩ := rdU8_eq_ok r1
    have hb0 := b0.isLt
    have hb1 := b1.isLt
    have hs := asSigned16_range (n := v0 + 256 * v1) (by omega)
    have ha : abs32 (asSigned 16 (v0 + 256 * v1)) = |asSigned 16 (v0 + 256 * v1)| :=
      abs32_of_small (by rw [abs_lt]; omega)
    have hse : Spec.signExtend 16 (v0 + 256 * v1) = asSigned 16 (v0 + 256 * v1) := rfl
    simp only [rdI16, rdU16, r0, r1, bind, Except.bind, pure, Except.pure,
      take_two_of_getElem? g0 g1, List.foldr, e0, e1, ha, hse, Nat.mul_zero, Nat.add_zero]

theorem computeMaxAmplitude.channelLoop_peak (buffer : List Byte) (bps end_ : Nat)
    (htier : bps ≤ 16) (hend : end_ ≤ buffer.length) :
    ∀ (n ptr : Nat) (maxAmp : ℚ), ptr ≤ end_ → Spec.width bps ∣ end_ - ptr →
      ∃ p1 m1, computeMaxAmplitude.channelLoop buffer bps end_ n ptr maxAmp = .ok (.inr (p1, m1)) ∧
        max m1 (Spec.peak bps ((buffer.drop p1).take (end_ - p1)))
          = max maxAmp (Spec.peak bps ((buffer.drop ptr).take (end_ - ptr))) ∧
        maxAmp ≤ m1 ∧ ptr ≤ p1 ∧ p1 ≤ end_ ∧ Spec.width bps ∣ end_ - p1 ∧
        (0 < n → ptr < end_ → ptr < p1) := by
  intro n
  induction n with
  | zero =>
    intro p m hle hdiv
    exact ⟨p, m, rfl, rfl, le_refl _, le_refl _, hle, hdiv, fun h => absurd h (lt_irrefl _)⟩
  | succ n ih =>
    intro p m hle hdiv
    rw [computeMaxAmplitude.channelLoop]
    by_cases hlt : p < end_
    · have hpos := Spec.width_pos bps
      have hge : Spec.width bps ≤ end_ - p := Nat.le_of_dvd (by omega) hdiv
      rw [if_pos hlt, computeMaxAmplitude.sample_eq_magnitude buffer bps p htier (by omega)]
      simp only [max_update]
      have hdiv1 : Spec.width bps ∣ end_ - (p + Spec.width bps) := by
        have e : end_ - (p + Spec.width bps) = (end_ - p) - Spec.width bps := by omega
        rw [e]
        exact Nat.dvd_sub' hdiv (dvd_refl _)
      obtain ⟨p1, m1, r1, r2, r3, r4, r5, r6, _⟩ := ih (p + Spec.width bps)
        (max m (Spec.magnitude bps ((buffer.drop p).take (Spec.width bps)))) (by omega) hdiv1
      refine ⟨p1, m1, r1, ?_, le_trans (le_max_left _ _) r3, by omega, r5, r6,
        fun _ _ => by omega⟩
      have hl : ((buffer.drop p).take (end_ - p)).length = end_ - p := by
        rw [List.length_take, List.length_drop]
        omega
      rw [r2, Spec.peak_step bps ((buffer.drop p).take (end_ - p)) (by omega),
        slice_take buffer p end_ _ (by omega), slice_drop, max_assoc]
    · rw [if_neg hlt]
      exact ⟨p, m, rfl, rfl, le_refl _, le_refl _, hle, hdiv, fun _ h => absurd h hlt⟩

theorem computeMaxAmplitude.whileLoop_peak (buffer : List Byte) (bps channels end_ : Nat)
    (htier : bps ≤ 16) (hend : end_ ≤ buffer.length) (hch : 0 < channels) :
    ∀ (fuel ptr : Nat) (maxAmp : ℚ), end_ - ptr < fuel → ptr ≤ end_ →
      Spec.width bps ∣ end_ - ptr → 0 ≤ maxAmp →
      computeMaxAmplitude.whileLoop buffer bps channels end_ fuel ptr maxAmp
        = .ok (max maxAmp (Spec.peak bps ((buffer.drop ptr).take (end_ - ptr)))) := by
  intro fuel
  induction fuel with
  | zero => intro p m h; omega
  | succ fuel ih =>
    intro p m hfuel hle hdiv h0
    rw [computeMaxAmplitude.whileLoop]
    by_cases hlt : p < end_
    · obtain ⟨p1, m1, r1, r2, r3, r4, r5, r6, r7⟩ :=
        computeMaxAmplitude.channelLoop_peak buffer bps end_ htier hend channels p m hle hdiv
      have := r7 hch hlt
      rw [if_pos hlt, r1]
      simp only []
      rw [ih p1 m1 (by omega) r5 r6 (le_trans h0 r3), r2]
    · rw [if_neg hlt]
      have e : end_ - p = 0 := by omega
      rw [e, List.take_zero, Spec.peak_short bps [] (Spec.width_pos bps), max_eq_left h0]

/-- In the 8- and 16-bit tiers `computeMaxAmplitude` returns the true peak: on a
PCM descriptor with at least one channel and a data range of whole samples
inside the buffer, the result is the maximum of the specification magnitudes of
the samples, once the fuel covers the data size. -/
theorem computeMaxAmplitude_eq_peak (fuel : Nat) (buffer : List Byte)
    (data size fmt bps channels : Nat)
    (ha : FmtSubchunk.audioFormat buffer fmt = .ok 1)
    (hb : FmtSubchunk.bitsPerSample buffer fmt = .ok bps)
    (hc : FmtSubchunk.numChannels buffer fmt = .ok channels)
    (htier : bps ≤ 16) (hch : 1 ≤ channels) (hdiv : Spec.width bps ∣ size)
    (hin : data + size ≤ buffer.length) (hfuel : size < fuel) :
    computeMaxAmplitude fuel buffer data size fmt
      = .ok (Spec.peak bps ((buffer.drop data).take size)) := by
  have hloop := computeMaxAmplitude.whileLoop_peak buffer bps channels (data + size) htier hin
    (by omega) fuel data 0 (by omega) (by omega)
    (by
      have e : data + size - data = size := by omega
      rw [e]
      exact hdiv) (le_refl _)
  have hnn : 0 ≤ Spec.peak bps ((buffer.drop data).take size) := by
    unfold Spec.peak
    generalize (List.map (Spec.magnitude bps) _) = l
    induction l with
    | nil => exact le_refl _
    | cons x xs ih => exact le_trans ih (le_max_right _ _)
  have e : data + size - data = size := by omega
  rw [e, max_eq_right hnn] at hloop
  unfold computeMaxAmplitude
  simp only [ha, hb, hc, bind, Except.bind, ne_eq, not_true_eq_false, if_false, hloop]

/-- The true peak of a 16-bit stereo frame holding `-16384` and `8192`. -/
theorem computeMaxAmplitude_eq_peak_witness :
    computeMaxAmplitude 5 (pcmFile 2 16 4 [0x00, 0xC0, 0x00, 0x20]) 44 4 20
      = .ok (Spec.peak 16 (((pcmFile 2 16 4 [0x00, 0xC0, 0x00, 0x20]).drop 44).take 4)) :=
  computeMaxAmplitude_eq_peak 5 (pcmFile 2 16 4 [0x00, 0xC0, 0x00, 0x20]) 44 4 20 16 2
    (by decide!) (by decide!) (by decide!) (by decide) (by decide) (by decide!) (by decide!)
    (by decide)

/-! ## The arithmetic of the rewrite -/

/-- With no channel the outer loop of the analyser never moves: every budget runs
out. -/
theorem computeMaxAmplitude.whileLoop_hangs (buffer : List Byte) (bps end_ ptr : Nat)
    (maxAmp : ℚ) (h : ptr < end_) :
    ∀ fuel, computeMaxAmplitude.whileLoop buffer bps 0 end_ fuel ptr maxAmp
      = .error .outOfFuel := by
  intro fuel
  induction fuel with
  | zero => rfl
  | succ fuel ih =>
    rw [computeMaxAmplitude.whileLoop, if_pos h]
    simp only [computeMaxAmplitude.channelLoop]
    exact ih

theorem bind_ne_fuel {α β : Type} {x : Except Fault α} {f : α → Except Fault β}
    (hx : x ≠ .error .outOfFuel) (hf : ∀ a, f a ≠ .error .outOfFuel) :
    (x >>= f) ≠ .error .outOfFuel := by
  cases x with
  | error e => simpa [bind, Except.bind] using hx
  | ok a => simpa [bind, Except.bind] using hf a

theorem pure_ne_fuel {α : Type} (a : α) : (pure a : Except Fault α) ≠ .error .outOfFuel := by
  simp [pure, Except.pure]

theorem rdU8_ne_fuel (buffer : List Byte) (p : Nat) : rdU8 buffer p ≠ .error .outOfFuel := by
  unfold rdU8
  split <;> simp

theorem rdU16_ne_fuel (buffer : List Byte) (p : Nat) : rdU16 buffer p ≠ .error .outOfFuel :=
  bind_ne_fuel (rdU8_ne_fuel _ _) fun _ => bind_ne_fuel (rdU8_ne_fuel _ _) fun _ => pure_ne_fuel _

theorem rdU32_ne_fuel (buffer : List Byte) (p : Nat) : rdU32 buffer p ≠ .error .outOfFuel :=
  bind_ne_fuel (rdU8_ne_fuel _ _) fun _ => bind_ne_fuel (rdU8_ne_fuel _ _) fun _ =>
    bind_ne_fuel (rdU8_ne_fuel _ _) fun _ => bind_ne_fuel (rdU8_ne_fuel _ _) fun _ =>
      pure_ne_fuel _

theorem rdI16_ne_fuel (buffer : List Byte) (p : Nat) : rdI16 buffer p ≠ .error .outOfFuel :=
  bind_ne_fuel (rdU16_ne_fuel _ _) fun _ => pure_ne_fuel _

theorem rdI32_ne_fuel (buffer : List Byte) (p : Nat) : rdI32 buffer p ≠ .error .outOfFuel :=
  bind_ne_fuel (rdU32_ne_fuel _ _) fun _ => pure_ne_fuel _

theorem rdS24_ne_fuel (buffer : List Byte) (p : Nat) : rdS24 buffer p ≠ .error .outOfFuel :=
  bind_ne_fuel (rdU8_ne_fuel _ _) fun _ => bind_ne_fuel (rdU8_ne_fuel _ _) fun _ =>
    bind_ne_fuel (rdU8_ne_fuel _ _) fun _ => pure_ne_fuel _

theorem wrU8_ne_fuel (buffer : List Byte) (p : Nat) (z : Int) :
    wrU8 buffer p z ≠ .error .outOfFuel := by
  unfold wrU8
  split <;> simp

theorem wrI16_ne_fuel (buffer : List Byte) (p : Nat) (z : Int) :
    wrI16 buffer p z ≠ .error .outOfFuel :=
  bind_ne_fuel (wrU8_ne_fuel _ _ _) fun _ => wrU8_ne_fuel _ _ _

theorem wrI32_ne_fuel (buffer : List Byte) (p : Nat) (z : Int) :
    wrI32 buffer p z ≠ .error .outOfFuel :=
  bind_ne_fuel (wrU8_ne_fuel _ _ _) fun _ => bind_ne_fuel (wrU8_ne_fuel _ _ _) fun _ =>
    bind_ne_fuel (wrU8_ne_fuel _ _ _) fun _ => wrU8_ne_fuel _ _ _

theorem rescale32_ne_fuel (lo hi v : Int) (g : ℚ) :
    normalizeWav.rescale castInt32 lo hi v g ≠ .error .outOfFuel := by
  refine bind_ne_fuel ?_ fun _ => pure_ne_fuel _
  unfold castInt32
  split <;> simp

theorem rescale64_ne_fuel (lo hi v : Int) (g : ℚ) :
    normalizeWav.rescale castInt64 lo hi v g ≠ .error .outOfFuel := by
  refine bind_ne_fuel ?_ fun _ => pure_ne_fuel _
  unfold castInt64
  split <;> simp

theorem computeMaxAmplitude.sample_ne_fuel (buffer : List Byte) (bps ptr : Nat) :
    computeMaxAmplitude.sample buffer bps ptr ≠ .error .outOfFuel := by
  unfold computeMaxAmplitude.sample
  split
  · exact bind_ne_fuel (rdU8_ne_fuel _ _) fun _ => pure_ne_fuel _
  · split
    · exact bind_ne_fuel (rdI16_ne_fuel _ _) fun _ => pure_ne_fuel _
    · split
      · exact bind_ne_fuel (rdS24_ne_fuel _ _) fun _ => pure_ne_fuel _
      · split
        · exact bind_ne_fuel (rdI32_ne_fuel _ _) fun _ => pure_ne_fuel _
        · exact pure_ne_fuel _

theorem normalizeWav.sample_keeps_fuel (buffer : List Byte) (bps audioPtr : Nat) (g : ℚ) :
    normalizeWav.sample buffer bps audioPtr g ≠ .error .outOfFuel := by
  unfold normalizeWav.sample
  split
  · exact bind_ne_fuel (rdU8_ne_fuel _ _) fun _ => bind_ne_fuel (rescale32_ne_fuel _ _ _ _)
      fun _ => bind_ne_fuel (wrU8_ne_fuel _ _ _) fun _ => pure_ne_fuel _
  · split
    · exact bind_ne_fuel (rdI16_ne_fuel _ _) fun _ => bind_ne_fuel (rescale32_ne_fuel _ _ _ _)
        fun _ => bind_ne_fuel (wrI16_ne_fuel _ _ _) fun _ => pure_ne_fuel _
    · split
      · exact bind_ne_fuel (rdS24_ne_fuel _ _) fun _ => bind_ne_fuel (rescale32_ne_fuel _ _ _ _)
          fun _ => bind_ne_fuel (wrU8_ne_fuel _ _ _) fun _ => bind_ne_fuel (wrU8_ne_fuel _ _ _)
            fun _ => bind_ne_fuel (wrU8_ne_fuel _ _ _) fun _ => pure_ne_fuel _
      · split
        · exact bind_ne_fuel (rdI32_ne_fuel _ _) fun _ =>
            bind_ne_fuel (rescale64_ne_fuel _ _ _ _) fun _ =>
              bind_ne_fuel (wrI32_ne_fuel _ _ _) fun _ => pure_ne_fuel _
        · exact pure_ne_fuel _

/-- The channel loop of the analyser never uses up a budget, and when it is left
normally the pointer has not moved back; it has moved on if there was a channel
and an unread byte. -/
theorem computeMaxAmplitude.channelLoop_progress (buffer : List Byte) (bps end_ : Nat) :
    ∀ (n ptr : Nat) (maxAmp : ℚ),
      computeMaxAmplitude.channelLoop buffer bps end_ n ptr maxAmp ≠ .error .outOfFuel ∧
      ∀ p1 m1, computeMaxAmplitude.channelLoop buffer bps end_ n ptr maxAmp = .ok (.inr (p1, m1)) →
        ptr ≤ p1 ∧ (0 < n → ptr < end_ → ptr < p1) := by
  intro n
  induction n with
  | zero =>
    intro p m
    simp only [computeMaxAmplitude.channelLoop]
    refine ⟨by simp, fun p1 m1 h => ?_⟩
    simp only [Except.ok.injEq, Sum.inr.injEq, Prod.mk.injEq] at h
    exact ⟨by omega, fun h0 => absurd h0 (lt_irrefl _)⟩
  | succ n ih =>
    intro p m
    rw [computeMaxAmplitude.channelLoop]
    split
    · rename_i hlt
      split
      · rename_i e he
        refine ⟨?_, fun p1 m1 h => by cases h⟩
        intro hc
        cases hc
        exact computeMaxAmplitude.sample_ne_fuel buffer bps p he
      · exact ⟨by simp, fun p1 m1 h => by cases h⟩
      · rename_i sample width hs
        have hw := (computeMaxAmplitude.sample_le_one hs).2
        obtain ⟨i1, i2⟩ := ih (p + width) (if sample > m then sample else m)
        refine ⟨i1, fun p1 m1 h => ?_⟩
        have := (i2 p1 m1 h).1
        exact ⟨by omega, fun _ _ => by omega⟩
    · rename_i hge
      refine ⟨by simp, fun p1 m1 h => ?_⟩
      simp only [Except.ok.injEq, Sum.inr.injEq, Prod.mk.injEq] at h
      exact ⟨by omega, fun _ hlt => absurd hlt hge⟩

/-- With at least one channel the outer loop of the analyser ends within
`end_ - ptr + 1` passes. -/
theorem computeMaxAmplitude.whileLoop_ends (buffer : List Byte) (bps channels end_ : Nat)
    (hch : 0 < channels) :
    ∀ (fuel ptr : Nat) (maxAmp : ℚ), end_ - ptr < fuel →
      computeMaxAmplitude.whileLoop buffer bps channels end_ fuel ptr maxAmp
        ≠ .error .outOfFuel := by
  intro fuel
  induction fuel with
  | zero => intro p m h; omega
  | succ fuel ih =>
    intro p m hfuel
    rw [computeMaxAmplitude.whileLoop]
    split
    · rename_i hlt
      obtain ⟨c1, c2⟩ := computeMaxAmplitude.channelLoop_progress buffer bps end_ channels p m
      split
      · rename_i e he
        intro hc
        cases hc
        exact c1 he
      · simp
      · rename_i p1 m1 hc
        have := (c2 p1 m1 hc).2 hch hlt
        exact ih p1 m1 (by omega)
    · simp

/-- Above 32 bits no tier applies, and the channel loop of the rewrite leaves the
pointer and the buffer as they are. -/
theorem normalizeWav.channelLoop_idle (bps audioEnd : Nat) (g : ℚ) (h : 32 < bps) :
    ∀ (n audioPtr : Nat) (buffer : List Byte),
      normalizeWav.channelLoop bps audioEnd g n audioPtr buffer = .ok (audioPtr, buffer) := by
  intro n
  induction n with
  | zero => intro p buffer; rfl
  | succ n ih =>
    intro p buffer
    rw [normalizeWav.channelLoop]
    split
    · have hs : normalizeWav.sample buffer bps p g = .ok (buffer, 0) := by
        unfold normalizeWav.sample
        rw [if_neg (by omega), if_neg (by omega), if_neg (by omega), if_neg (by omega)]
        rfl
      rw [hs]
      exact ih p buffer
    · rfl

/-- The outer loop of the rewrite does not advance when no tier applies or when
there is no channel: every budget runs out. -/
theorem normalizeWav.whileLoop_spins (bps channels audioEnd audioPtr : Nat) (g : ℚ)
    (buffer : List Byte) (h : 32 < bps ∨ channels = 0) (hlt : audioPtr < audioEnd) :
    ∀ fuel, normalizeWav.whileLoop bps channels audioEnd g fuel audioPtr buffer
      = .error .outOfFuel := by
  intro fuel
  induction fuel with
  | zero => rfl
  | succ fuel ih =>
    rw [normalizeWav.whileLoop, if_pos hlt]
    have hc : normalizeWav.channelLoop bps audioEnd g channels audioPtr buffer
        = .ok (audioPtr, buffer) := by
      rcases h with h | h
      · exact normalizeWav.channelLoop_idle bps audioEnd g h channels audioPtr buffer
      · subst h; rfl
    rw [hc]
    exact ih

/-- The channel loop of the rewrite never uses up a budget, and in a tier it
moves the pointer on if there was a channel and an unread byte. -/
theorem normalizeWav.channelLoop_advances (bps audioEnd : Nat) (g : ℚ) :
    ∀ (n audioPtr : Nat) (buffer : List Byte),
      normalizeWav.channelLoop bps audioEnd g n audioPtr buffer ≠ .error .outOfFuel ∧
      ∀ p1 out, normalizeWav.channelLoop bps audioEnd g n audioPtr buffer = .ok (p1, out) →
        audioPtr ≤ p1 ∧ (bps ≤ 32 → 0 < n → audioPtr < audioEnd → audioPtr < p1) := by
  intro n
  induction n with
  | zero =>
    intro p buffer
    simp only [normalizeWav.channelLoop]
    refine ⟨by simp, fun p1 out h => ?_⟩
    simp only [Except.ok.injEq, Prod.mk.injEq] at h
    exact ⟨by omega, fun _ h0 => absurd h0 (lt_irrefl _)⟩
  | succ n ih =>
    intro p buffer
    rw [normalizeWav.channelLoop]
    split
    · split
      · rename_i e he
        refine ⟨?_, fun p1 out h => by cases h⟩
        intro hc
        cases hc
        exact normalizeWav.sample_keeps_fuel buffer bps p g he
      · rename_i b1 width hs
        have hw := (normalizeWav.sample_frame hs).2.2
        obtain ⟨i1, i2⟩ := ih (p + width) b1
        refine ⟨i1, fun p1 out h => ?_⟩
        have := (i2 p1 out h).1
        refine ⟨by omega, fun h32 _ _ => ?_⟩
        rw [if_pos h32] at hw
        have := Spec.width_pos bps
        omega
    · rename_i hge
      refine ⟨by simp, fun p1 out h => ?_⟩
      simp only [Except.ok.injEq, Prod.mk.injEq] at h
      exact ⟨by omega, fun _ _ hlt => absurd hlt hge⟩

/-- In a tier and with at least one channel the outer loop of the rewrite ends
within `audioEnd - audioPtr + 1` passes. -/
theorem normalizeWav.whileLoop_finishes (bps channels audioEnd : Nat) (g : ℚ) (h32 : bps ≤ 32)
    (hch : 0 < channels) :
    ∀ (fuel audioPtr : Nat) (buffer : List Byte), audioEnd - audioPtr < fuel →
      normalizeWav.whileLoop bps channels audioEnd g fuel audioPtr buffer
        ≠ .error .outOfFuel := by
  intro fuel
  induction fuel with
  | zero => intro p buffer h; omega
  | succ fuel ih =>
    intro p buffer hfuel
    rw [normalizeWav.whileLoop]
    split
    · rename_i hlt
      obtain ⟨c1, c2⟩ := normalizeWav.channelLoop_advances bps audioEnd g channels p buffer
      split
      · rename_i e he
        intro hc
        cases hc
        exact c1 he
      · rename_i p1 b1 hc
        have := (c2 p1 b1 hc).2 h32 hch hlt
        exact ih p1 b1 (by omega)
    · simp

/-- C16 fails when numChannels is 0 and the data range is not empty: on the PCM
file with the channel count 0 and one 16-bit sample the outer loop of
`computeMaxAmplitude` never reads a byte, and no budget of passes lets the
function return; the analysis pass of `main` hangs with it. -/
theorem computeMaxAmplitude_hangs_without_channels (fuel : Nat) :
    computeMaxAmplitude fuel (pcmFile 0 16 2 [0x00, 0x40]) 44 2 20 = .error .outOfFuel ∧
      main.analysed fuel [("a.wav", pcmFile 0 16 2 [0x00, 0x40])] = .error .outOfFuel := by
  have ha : FmtSubchunk.audioFormat (pcmFile 0 16 2 [0x00, 0x40]) 20 = .ok 1 := by decide!
  have hb : FmtSubchunk.bitsPerSample (pcmFile 0 16 2 [0x00, 0x40]) 20 = .ok 16 := by decide!
  have hc : FmtSubchunk.numChannels (pcmFile 0 16 2 [0x00, 0x40]) 20 = .ok 0 := by decide!
  have hw : main.walk (pcmFile 0 16 2 [0x00, 0x40]) ((pcmFile 0 16 2 [0x00, 0x40]).length + 1)
      12 none = .ok ⟨some 20, some 44, 2⟩ := by decide!
  have h1 : computeMaxAmplitude fuel (pcmFile 0 16 2 [0x00, 0x40]) 44 2 20
      = .error .outOfFuel := by
    unfold computeMaxAmplitude
    simp only [ha, hb, hc, bind, Except.bind, ne_eq, not_true_eq_false, if_false]
    exact computeMaxAmplitude.whileLoop_hangs _ 16 (44 + 2) 44 0 (by omega) fuel
  refine ⟨h1, ?_⟩
  simp only [main.analysed, main.analysisPass, main.analyse, hw, h1]

theorem computeMaxAmplitude.sample_width {buffer : List Byte} {bps ptr width : Nat} {s : ℚ}
    (h : computeMaxAmplitude.sample buffer bps ptr = .ok (some (s, width))) :
    bps ≤ 32 ∧ width = Spec.width bps := by
  unfold computeMaxAmplitude.sample at h
  unfold Spec.width
  split at h
  · rename_i h8
    simp only [bind_eq_ok, pure, Except.pure, Except.ok.injEq, Option.some.injEq,
      Prod.mk.injEq] at h
    obtain ⟨_, _, _, hw⟩ := h
    rw [if_pos h8]
    exact ⟨by omega, hw.symm⟩
  · rename_i h8
    split at h
    · rename_i h16
      simp only [bind_eq_ok, pure, Except.pure, Except.ok.injEq, Option.some.injEq,
        Prod.mk.injEq] at h
      obtain ⟨_, _, _, hw⟩ := h
      rw [if_neg h8, if_pos h16]
      exact ⟨by omega, hw.symm⟩
    · rename_i h16
      split at h
      · rename_i h24
        simp only [bind_eq_ok, pure, Except.pure, Except.ok.injEq, Option.some.injEq,
          Prod.mk.injEq] at h
        obtain ⟨_, _, _, hw⟩ := h
        rw [if_neg h8, if_neg h16, if_pos h24]
        exact ⟨by omega, hw.symm⟩
      · rename_i h24
        split at h
        · rename_i h32
          simp only [bind_eq_ok, pure, Except.pure, Except.ok.injEq, Option.some.injEq,
            Prod.mk.injEq] at h
          obtain ⟨_, _, _, hw⟩ := h
          rw [if_neg h8, if_neg h16, if_neg h24]
          exact ⟨h32, hw.symm⟩
        · simp [pure, Except.pure] at h

/-- Above 32 bits the analyser returns `0` or the maximum it started from. -/
theorem computeMaxAmplitude.whileLoop_unsupported (buffer : List Byte)
    (bps channels end_ : Nat) (h : 32 < bps) :
    ∀ (fuel ptr : Nat) (maxAmp r : ℚ),
      computeMaxAmplitude.whileLoop buffer bps channels end_ fuel ptr maxAmp = .ok r →
      r = 0 ∨ r = maxAmp := by
  have hs : ∀ p, computeMaxAmplitude.sample buffer bps p = .ok none := by
    intro p
    unfold computeMaxAmplitude.sample
    rw [if_neg (by omega), if_neg (by omega), if_neg (by omega), if_neg (by omega)]
    rfl
  have hc : ∀ n p m res, computeMaxAmplitude.channelLoop buffer bps end_ n p m = .ok res →
      res = .inl 0 ∨ res = .inr (p, m) := by
    intro n p m res hres
    cases n with
    | zero =>
      simp only [computeMaxAmplitude.channelLoop, Except.ok.injEq] at hres
      exact Or.inr hres.symm
    | succ n =>
      rw [computeMaxAmplitude.channelLoop] at hres
      split at hres
      · rw [hs] at hres
        simp only [Except.ok.injEq] at hres
        exact Or.inl hres.symm
      · simp only [Except.ok.injEq] at hres
        exact Or.inr hres.symm
  intro fuel
  induction fuel with
  | zero => intro p m r hr; simp [computeMaxAmplitude.whileLoop] at hr
  | succ fuel ih =>
    intro p m r hr
    rw [computeMaxAmplitude.whileLoop] at hr
    split at hr
    · split at hr
      · cases hr
      · simp only [Except.ok.injEq] at hr
        rename_i r0 hcl
        rcases hc _ _ _ _ hcl with h1 | h1
        · simp only [Sum.inl.injEq] at h1
          exact Or.inl (hr ▸ h1)
        · cases h1
      · rename_i p1 m1 hcl
        rcases hc _ _ _ _ hcl with h1 | h1
        · cases h1
        · simp only [Sum.inr.injEq, Prod.mk.injEq] at h1
          obtain ⟨_, hm⟩ := h1
          rw [hm] at hr
          exact ih _ _ _ hr
    · simp only [Except.ok.injEq] at hr
      exact Or.inr hr.symm

/-- C17: whenever `computeMaxAmplitude` returns a positive amplitude on a format
descriptor and data range, the descriptor is PCM with at least one channel and
at most 32 bits; the encode loop of `normalizeWav` on the same descriptor and
range then ends within `size + 1` passes of its outer loop, with any gain, and
advances per sample by the width the analyser advances by.  By itself the loop
never ends on unread data when bitsPerSample is above 32 or numChannels is 0. -/
theorem normalizer_loop_ends_after_positive_peak (fuel : Nat) (buffer : List Byte)
    (data size fmt : Nat) (a g : ℚ)
    (h : computeMaxAmplitude fuel buffer data size fmt = .ok a) (hpos : 0 < a) :
    ∃ bps channels, FmtSubchunk.audioFormat buffer fmt = .ok 1 ∧
      FmtSubchunk.bitsPerSample buffer fmt = .ok bps ∧
      FmtSubchunk.numChannels buffer fmt = .ok channels ∧ 1 ≤ channels ∧ bps ≤ 32 ∧
      (∀ fuel2, size < fuel2 →
        normalizeWav.apply fuel2 buffer fmt data size g ≠ .error .outOfFuel) ∧
      (∀ (b out : List Byte) (p w1 w2 : Nat) (s : ℚ),
        normalizeWav.sample b bps p g = .ok (out, w1) →
        computeMaxAmplitude.sample b bps p = .ok (some (s, w2)) → w1 = w2) ∧
      (∀ (bps2 channels2 e p fuel2 : Nat) (b : List Byte), 32 < bps2 ∨ channels2 = 0 → p < e →
        normalizeWav.whileLoop bps2 channels2 e g fuel2 p b = .error .outOfFuel) := by
  unfold computeMaxAmplitude at h
  simp only [bind_eq_ok] at h
  obtain ⟨af, haf, h⟩ := h
  split at h
  · simp only [pure, Except.pure, Except.ok.injEq] at h
    rw [← h] at hpos
    exact absurd hpos (lt_irrefl _)
  · rename_i haf1
    simp only [ne_eq, not_not] at haf1
    subst haf1
    simp only [bind_eq_ok] at h
    obtain ⟨bps, hb, channels, hc, hl⟩ := h
    have hch : 1 ≤ channels := by
      by_contra hc0
      have hz : channels = 0 := by omega
      subst hz
      cases fuel with
      | zero => simp [computeMaxAmplitude.whileLoop] at hl
      | succ fuel =>
        by_cases hlt : data < data + size
        · rw [computeMaxAmplitude.whileLoop_hangs buffer bps (data + size) data 0 hlt] at hl
          cases hl
        · rw [computeMaxAmplitude.whileLoop, if_neg hlt] at hl
          simp only [Except.ok.injEq] at hl
          rw [← hl] at hpos
          exact lt_irrefl _ hpos
    have h32 : bps ≤ 32 := by
      by_contra hc32
      rcases computeMaxAmplitude.whileLoop_unsupported buffer bps channels (data + size)
        (by omega) fuel data 0 a hl with h0 | h0 <;>
      · rw [h0] at hpos
        exact lt_irrefl _ hpos
    refine ⟨bps, channels, haf, hb, hc, hch, h32, ?_, ?_, ?_⟩
    · intro fuel2 hf
      unfold normalizeWav.apply
      simp only [hb, hc, bind, Except.bind]
      exact normalizeWav.whileLoop_finishes bps channels (data + size) g h32 (by omega) fuel2 data
        buffer (by omega)
    · intro b out p w1 w2 s hn hm
      have e1 := (normalizeWav.sample_frame hn).2.2
      have e2 := (computeMaxAmplitude.sample_width hm).2
      rw [if_pos h32] at e1
      rw [e1, e2]
    · intro bps2 channels2 e p fuel2 b hor hlt
      exact normalizeWav.whileLoop_spins bps2 channels2 e p g b hor hlt fuel2

/-- C17, at the 16-bit mono file with the one sample `00 40` and the gain 2. -/
theorem normalizer_loop_ends_after_positive_peak_witness :
    ∃ bps channels, FmtSubchunk.audioFormat (pcmFile 1 16 2 [0x00, 0x40]) 20 = .ok 1 ∧
      FmtSubchunk.bitsPerSample (pcmFile 1 16 2 [0x00, 0x40]) 20 = .ok bps ∧
      FmtSubchunk.numChannels (pcmFile 1 16 2 [0x00, 0x40]) 20 = .ok channels ∧
      1 ≤ channels ∧ bps ≤ 32 ∧
      (∀ fuel2, 2 < fuel2 →
        normalizeWav.apply fuel2 (pcmFile 1 16 2 [0x00, 0x40]) 20 44 2 2 ≠ .error .outOfFuel) ∧
      (∀ (b out : List Byte) (p w1 w2 : Nat) (s : ℚ),
        normalizeWav.sample b bps p 2 = .ok (out, w1) →
        computeMaxAmplitude.sample b bps p = .ok (some (s, w2)) → w1 = w2) ∧
      (∀ (bps2 channels2 e p fuel2 : Nat) (b : List Byte), 32 < bps2 ∨ channels2 = 0 → p < e →
        normalizeWav.whileLoop bps2 channels2 e 2 fuel2 p b = .error .outOfFuel) :=
  normalizer_loop_ends_after_positive_peak 2 (pcmFile 1 16 2 [0x00, 0x40]) 44 2 20 (1 / 2) 2
    (by decide!) (by norm_num)

/-! ## When normalizeWav returns -/

/-- The function `normalizeWav` returns `false` exactly when the buffer is shorter
than 12 bytes, a tag does not match, or the walk ends without a format chunk or
without a data chunk. -/
theorem normalizeWav_false_iff (fuel : Nat) (buffer : List Byte) (g : ℚ) :
    normalizeWav fuel buffer g = .ok none ↔
      (buffer.length < 12 ∨ matchTag buffer 0 tagRIFF = .ok false ∨
        matchTag buffer 8 tagWAVE = .ok false ∨
        ∃ w, normalizeWav.walk buffer (buffer.length + 1) 12 none = .ok w ∧
          (w.fmt = none ∨ w.dataPtr = none)) := by
  unfold normalizeWav
  by_cases hlen : buffer.length < 12
  · simp [hlen]
  · obtain ⟨r, hr⟩ := matchTag_ok_of_le buffer 0 tagRIFF (by omega)
    obtain ⟨v, hv⟩ := matchTag_ok_of_le buffer 8 tagWAVE (by omega)
    obtain ⟨w, hw⟩ := processWavFile.walk_total buffer none
    rw [← normalizeWav_walk_eq] at hw
    simp only [hlen, if_false, hr, hv, hw, false_or, Except.ok.injEq, exists_eq_left']
    cases r <;> cases v <;> simp
    rcases hf : w.fmt with _ | fmt <;> rcases hd : w.dataPtr with _ | d <;> simp
    cases normalizeWav.apply fuel buffer fmt d w.dataSize g <;> simp

/-- On a file that passes the checks of `normalizeWav`, with a data chunk that is
not empty, the function does not return when bitsPerSample is above 32 or
numChannels is 0. -/
theorem normalizeWav_hangs (fuel : Nat) (buffer : List Byte) (g : ℚ) (w : Walk)
    (fmt d bps channels : Nat)
    (hr : matchTag buffer 0 tagRIFF = .ok true) (hv : matchTag buffer 8 tagWAVE = .ok true)
    (hw : normalizeWav.walk buffer (buffer.length + 1) 12 none = .ok w)
    (hf : w.fmt = some fmt) (hd : w.dataPtr = some d)
    (hb : FmtSubchunk.bitsPerSample buffer fmt = .ok bps)
    (hc : FmtSubchunk.numChannels buffer fmt = .ok channels)
    (hor : 32 < bps ∨ channels = 0) (hne : 0 < w.dataSize) :
    normalizeWav fuel buffer g = .error .outOfFuel := by
  have hlen := matchTag_le hv
  unfold normalizeWav
  have e : ¬ buffer.length < 12 := by omega
  simp only [e, if_false, hr, hv, hw, hf, hd, normalizeWav.apply, hb, hc, bind, Except.bind]
  rw [normalizeWav.whileLoop_spins _ _ (d + w.dataSize) d g _ hor (by omega) fuel]
  rfl

/-- C15 fails in its last part: there are buffers of 12 bytes and more, with
matching tags and with a format and a data chunk, on which `normalizeWav` does
not return.  With numChannels 0, or with bitsPerSample 40, and a data chunk that
is not empty, the encode loop never advances and no budget ends it; on
`shortFmtFile` the read of bitsPerSample is outside the buffer. -/
theorem normalizeWav_does_not_return (fuel : Nat) :
    normalizeWav fuel (pcmFile 0 16 2 [0x00, 0x40]) 2 = .error .outOfFuel ∧
      normalizeWav fuel (pcmFile 1 40 2 [0x00, 0x40]) 2 = .error .outOfFuel ∧
      normalizeWav.walk (pcmFile 0 16 2 [0x00, 0x40]) 47 12 none = .ok ⟨some 20, some 44, 2⟩ ∧
      normalizeWav.walk (pcmFile 1 40 2 [0x00, 0x40]) 47 12 none = .ok ⟨some 20, some 44, 2⟩ ∧
      matchTag (pcmFile 0 16 2 [0x00, 0x40]) 0 tagRIFF = .ok true ∧
      matchTag (pcmFile 0 16 2 [0x00, 0x40]) 8 tagWAVE = .ok true ∧
      normalizeWav 1 shortFmtFile 2 = .error .outOfBounds := by
  refine ⟨normalizeWav_hangs fuel _ 2 ⟨some 20, some 44, 2⟩ 20 44 16 0 (by decide!) (by decide!)
      (by decide!) rfl rfl (by decide!) (by decide!) (Or.inr rfl) (by decide),
    normalizeWav_hangs fuel _ 2 ⟨some 20, some 44, 2⟩ 20 44 40 1 (by decide!) (by decide!)
      (by decide!) rfl rfl (by decide!) (by decide!) (Or.inl (by decide)) (by decide),
    ?_, ?_, ?_, ?_, ?_⟩ <;> decide!

/-! ## The 24-bit decode -/

/-- When the low and the middle byte are below 128 the 24-bit decode is the sign
extension of the little-endian value. -/
theorem decode24_of_small_low_bytes (b0 b1 b2 : Nat) (h0 : b0 < 128) (h1 : b1 < 128)
    (h2 : b2 < 256) :
    decode24 b0 b1 b2 = Spec.signExtend 24 (b0 + 256 * b1 + 65536 * b2) := by
  have e0 : charBits b0 = b0 := by unfold charBits; rw [if_pos h0]
  have e1 : (charBits b1 <<< 8) % 2 ^ 32 = 2 ^ 8 * b1 := by
    unfold charBits; rw [if_pos h1, Nat.shiftLeft_eq]; omega
  have low : b0 ||| 2 ^ 8 * b1 = 2 ^ 8 * b1 + b0 := by
    rw [Nat.or_comm, Nat.mul_add_lt_is_or (by omega)]
  unfold decode24 Spec.signExtend asSigned
  simp only []
  rw [e0, e1, low]
  by_cases hs : b2 < 128
  · have e2 : (charBits b2 <<< 16) % 2 ^ 32 = 2 ^ 16 * b2 := by
      unfold charBits; rw [if_pos hs, Nat.shiftLeft_eq]; omega
    have hv : 2 ^ 8 * b1 + b0 ||| 2 ^ 16 * b2 = 2 ^ 16 * b2 + (2 ^ 8 * b1 + b0) := by
      rw [Nat.or_comm]
      exact (Nat.mul_add_lt_is_or (by omega) _).symm
    rw [e2, hv, and_bit23_of_lt (by omega)]
    simp only [ne_eq, not_true_eq_false, if_false]
    rw [if_pos (by omega), if_pos (by omega)]
    push_cast
    ring
  · have e2 : (charBits b2 <<< 16) % 2 ^ 32 = 2 ^ 16 * (b2 + 65280) := by
      unfold charBits; rw [if_neg hs, Nat.shiftLeft_eq]; omega
    have hv : 2 ^ 8 * b1 + b0 ||| 2 ^ 16 * (b2 + 65280)
        = 2 ^ 16 * (b2 + 65280) + (2 ^ 8 * b1 + b0) := by
      rw [Nat.or_comm]
      exact (Nat.mul_add_lt_is_or (by omega) _).symm
    have hsplit : 2 ^ 16 * (b2 + 65280) + (2 ^ 8 * b1 + b0)
        = 2 ^ 24 * 255 + (2 ^ 16 * b2 + 2 ^ 8 * b1 + b0) := by omega
    have hab : 2 ^ 24 * 255 + (2 ^ 16 * b2 + 2 ^ 8 * b1 + b0) ||| 0xFF000000
        = 2 ^ 24 * 255 + (2 ^ 16 * b2 + 2 ^ 8 * b1 + b0) := by
      have e : (0xFF000000 : Nat) = 2 ^ 24 * 255 := by norm_num
      have hor : 2 ^ 24 * 255 + (2 ^ 16 * b2 + 2 ^ 8 * b1 + b0)
          = 2 ^ 24 * 255 ||| (2 ^ 16 * b2 + 2 ^ 8 * b1 + b0) :=
        Nat.mul_add_lt_is_or (by omega) _
      rw [e, hor, Nat.or_comm, ← Nat.or_assoc, Nat.or_self]
    rw [e2, hv, hsplit]
    have hfin : ∀ V : Nat, V = 2 ^ 24 * 255 + (2 ^ 16 * b2 + 2 ^ 8 * b1 + b0) →
        (if V < 2 ^ (32 - 1) then (V : Int) else (V : Int) - 2 ^ 32)
          = if b0 + 256 * b1 + 65536 * b2 < 2 ^ (24 - 1)
            then ((b0 + 256 * b1 + 65536 * b2 : Nat) : Int)
            else ((b0 + 256 * b1 + 65536 * b2 : Nat) : Int) - 2 ^ 24 := by
      intro V hV
      rw [if_neg (by omega), if_neg (by omega)]
      omega
    split
    · rw [hab]
      exact hfin _ rfl
    · exact hfin _ rfl

/-- C14 fails when the low or the middle byte is 128 or more: the bytes `FF 00 00`
(the value 255) decode as `-1` and the bytes `00 80 00` (the value 32768) as
`-32768`, in the analyser, whose magnitude is then `1 / 8388608`, and in the
rewrite, which at gain 1 stores `FF FF FF`. -/
theorem decode24_wrong_for_high_low_bytes :
    decode24 0xFF 0x00 0x00 = -1 ∧ Spec.signExtend 24 (0xFF + 256 * 0x00 + 65536 * 0x00) = 255 ∧
      decode24 0x00 0x80 0x00 = -32768 ∧
      Spec.signExtend 24 (0x00 + 256 * 0x80 + 65536 * 0x00) = 32768 ∧
      computeMaxAmplitude.sample [0xFF, 0x00, 0x00] 24 0 = .ok (some (1 / 8388608, 3)) ∧
      normalizeWav.sample [0xFF, 0x00, 0x00] 24 0 1 = .ok ([0xFF, 0xFF, 0xFF], 3) := by
  refine ⟨?_, ?_, ?_, ?_, ?_, ?_⟩ <;> decide!

/-! ## The order of the rewritten samples -/

/-- C18: on every buffer the chunk walks of `processWavFile`, of `normalizeWav` and
of the analysis pass of `main` return, and they return the same format pointer,
data pointer and data size.  So when the tags match and the analysis pass
measures an amplitude, `processWavFile` returns that amplitude and
`normalizeWav` rewrites, with the same descriptor, the very range that was
measured. -/
theorem chunk_walks_agree (buffer : List Byte) :
    ∃ w, processWavFile.walk buffer (buffer.length + 1) 12 none = .ok w ∧
      normalizeWav.walk buffer (buffer.length + 1) 12 none = .ok w ∧
      main.walk buffer (buffer.length + 1) 12 none = .ok w ∧
      ∀ (fuel : Nat) (g amp : ℚ), matchTag buffer 0 tagRIFF = .ok true →
        matchTag buffer 8 tagWAVE = .ok true → main.Measured fuel buffer amp →
        ∃ fmt d, w.fmt = some fmt ∧ w.dataPtr = some d ∧
          computeMaxAmplitude fuel buffer d w.dataSize fmt = .ok amp ∧
          processWavFile fuel buffer = .ok amp ∧
          normalizeWav fuel buffer g
            = (normalizeWav.apply fuel buffer fmt d w.dataSize g).map some := by
  obtain ⟨w, hw⟩ := processWavFile.walk_total buffer none
  have hn : normalizeWav.walk buffer (buffer.length + 1) 12 none = .ok w := by
    rw [normalizeWav_walk_eq]; exact hw
  have hm : main.walk buffer (buffer.length + 1) 12 none = .ok w := by
    rw [main_walk_eq]; exact hw
  refine ⟨w, hw, hn, hm, ?_⟩
  intro fuel g amp hr hv hmeas
  obtain ⟨w1, fmt, d, hw1, hf, hd, hamp⟩ := hmeas
  rw [hm] at hw1
  cases hw1
  have hlen := matchTag_le hv
  have e : ¬ buffer.length < 12 := by omega
  refine ⟨fmt, d, hf, hd, hamp, ?_, ?_⟩
  · unfold processWavFile
    simp only [e, if_false, hr, hv, hw, hf, hd]
    exact hamp
  · unfold normalizeWav
    simp only [e, if_false, hr, hv, hn, hf, hd]
    cases normalizeWav.apply fuel buffer fmt d w.dataSize g <;> rfl

/-! ## The gains of the batch -/

theorem computeMaxAmplitude_nonneg {fuel : Nat} {buffer : List Byte} {data size fmt : Nat}
    {r : ℚ} (h : computeMaxAmplitude fuel buffer data size fmt = .ok r) : 0 ≤ r := by
  unfold computeMaxAmplitude at h
  simp only [bind_eq_ok] at h
  obtain ⟨af, _, h⟩ := h
  split at h
  · simp only [pure, Except.pure, Except.ok.injEq] at h
    exact h ▸ le_refl _
  · simp only [bind_eq_ok] at h
    obtain ⟨bps, _, channels, _, hl⟩ := h
    exact (computeMaxAmplitude.whileLoop_range buffer bps channels (data + size) fuel data 0
      (le_refl _) zero_le_one r hl).1

theorem mapAssign_mem_of_fresh {m : List (String × ℚ)} {k : String} {v : ℚ}
    (hk : k ∉ m.map Prod.fst) (x : String × ℚ) :
    x ∈ mapAssign m k v ↔ x = (k, v) ∨ x ∈ m := by
  refine ⟨mapAssign_mem, ?_⟩
  induction m with
  | nil =>
    intro h
    simpa [mapAssign] using h
  | cons e rest ih =>
    obtain ⟨k0, v0⟩ := e
    have hk0 : k ≠ k0 := fun h => hk (by simp [h])
    have hkr : k ∉ rest.map Prod.fst := fun h => hk (by simp [h])
    intro h
    simp only [mapAssign, if_neg hk0]
    split
    · rcases h with h | h
      · exact h ▸ List.mem_cons_self _ _
      · exact List.mem_cons_of_mem _ h
    · rcases h with h | h
      · exact List.mem_cons_of_mem _ (ih hkr (Or.inl h))
      · rcases List.mem_cons.1 h with h | h
        · exact h ▸ List.mem_cons_self _ _
        · exact List.mem_cons_of_mem _ (ih hkr (Or.inr h))

theorem mapAssign_keys_nodup {m : List (String × ℚ)} {k : String} {v : ℚ}
    (hk : k ∉ m.map Prod.fst) (hm : (m.map Prod.fst).Nodup) :
    ((mapAssign m k v).map Prod.fst).Nodup := by
  induction m with
  | nil => simp [mapAssign]
  | cons e rest ih =>
    obtain ⟨k0, v0⟩ := e
    have hk0 : k ≠ k0 := fun h => hk (by simp [h])
    have hkr : k ∉ rest.map Prod.fst := fun h => hk (by simp [h])
    simp only [List.map_cons, List.nodup_cons] at hm
    simp only [mapAssign, if_neg hk0]
    split
    · simp only [List.map_cons, List.nodup_cons, List.mem_cons, not_or]
      exact ⟨⟨hk0, hkr⟩, hm.1, hm.2⟩
    · simp only [List.map_cons, List.nodup_cons]
      refine ⟨?_, ih hkr hm.2⟩
      intro hmem
      rw [List.mem_map] at hmem
      obtain ⟨x, hx, hx0⟩ := hmem
      rcases mapAssign_mem hx with h | h
      · rw [h] at hx0
        exact hk0 hx0
      · exact hm.1 (hx0 ▸ List.mem_map_of_mem _ h)

theorem main.Measured_unique {fuel : Nat} {buffer : List Byte} {a1 a2 : ℚ}
    (h1 : main.Measured fuel buffer a1) (h2 : main.Measured fuel buffer a2) : a1 = a2 := by
  obtain ⟨w1, f1, d1, hw1, hf1, hd1, hc1⟩ := h1
  obtain ⟨w2, f2, d2, hw2, hf2, hd2, hc2⟩ := h2
  rw [hw1] at hw2
  cases hw2
  rw [hf1] at hf2
  rw [hd1] at hd2
  cases hf2
  cases hd2
  rw [hc1] at hc2
  cases hc2
  rfl

/-- One step of the analysis, on an entry at a new path, keeps `main.Exact`. -/
theorem main.analyse_keeps_exact {fuel : Nat} {done : List (String × List Byte)}
    {st st1 : Batch} {path : String} {buffer : List Byte}
    (hfresh : path ∉ done.map Prod.fst) (hs : main.Exact fuel done st)
    (h : main.analyse fuel st path buffer = .ok st1) :
    main.Exact fuel (done ++ [(path, buffer)]) st1 := by
  obtain ⟨ha, hb, hc, hd⟩ := hs
  have hkey : path ∉ st.fileAmplitudes.map Prod.fst := by
    intro hmem
    rw [List.mem_map] at hmem
    obtain ⟨⟨p, a⟩, hx, hp⟩ := hmem
    simp only at hp
    subst hp
    obtain ⟨b, hb1, _⟩ := (ha p a).1 hx
    exact hfresh (List.mem_map_of_mem Prod.fst hb1)
  unfold main.analyse at h
  split at h
  · cases h
  · rename_i w hw
    split at h
    · rename_i fmt dataPtr hf hdp
      split at h
      · cases h
      · rename_i amp hamp
        have hm : main.Measured fuel buffer amp := ⟨w, fmt, dataPtr, hw, hf, hdp, hamp⟩
        have hnn := computeMaxAmplitude_nonneg hamp
        have ha1 : ∀ p a, (p, a) ∈ mapAssign st.fileAmplitudes path amp ↔
            ∃ b, (p, b) ∈ done ++ [(path, buffer)] ∧ main.Measured fuel b a := by
          intro p a
          rw [mapAssign_mem_of_fresh hkey]
          constructor
          · rintro (h1 | h1)
            · cases h1
              exact ⟨buffer, by simp, hm⟩
            · obtain ⟨b, hb1, hb2⟩ := (ha p a).1 h1
              exact ⟨b, by simp [hb1], hb2⟩
          · rintro ⟨b, hb1, hb2⟩
            rcases List.mem_append.1 hb1 with h1 | h1
            · exact Or.inr ((ha p a).2 ⟨b, h1, hb2⟩)
            · simp only [List.mem_singleton, Prod.mk.injEq] at h1
              obtain ⟨hp, hbb⟩ := h1
              subst hp hbb
              exact Or.inl (by rw [main.Measured_unique hb2 hm])
        have hb1 := mapAssign_keys_nodup (v := amp) hkey hb
        simp only [] at h
        split at h
        · rename_i hgt
          cases h
          refine ⟨ha1, hb1, ?_, Or.inr ?_⟩
          · intro p a hpa
            rcases (mapAssign_mem_of_fresh hkey (p, a)).1 hpa with h1 | h1
            · cases h1
              exact ⟨hnn, le_refl _⟩
            · exact ⟨(hc p a h1).1, le_of_lt (lt_of_le_of_lt (hc p a h1).2 hgt)⟩
          · exact (mapAssign_mem_of_fresh hkey _).2 (Or.inl rfl)
        · rename_i hgt
          cases h
          refine ⟨ha1, hb1, ?_, ?_⟩
          · intro p a hpa
            rcases (mapAssign_mem_of_fresh hkey (p, a)).1 hpa with h1 | h1
            · cases h1
              exact ⟨hnn, not_lt.1 hgt⟩
            · exact hc p a h1
          · rcases hd with h1 | h1
            · exact Or.inl h1
            · exact Or.inr ((mapAssign_mem_of_fresh hkey _).2 (Or.inr h1))
    · rename_i hnone
      cases h
      refine ⟨?_, hb, hc, hd⟩
      intro p a
      rw [ha p a]
      constructor
      · rintro ⟨b, hb1, hb2⟩
        exact ⟨b, by simp [hb1], hb2⟩
      · rintro ⟨b, hb1, hb2⟩
        rcases List.mem_append.1 hb1 with h1 | h1
        · exact ⟨b, h1, hb2⟩
        · simp only [List.mem_singleton, Prod.mk.injEq] at h1
          obtain ⟨_, hbb⟩ := h1
          subst hbb
          obtain ⟨w1, f1, d1, hw1, hf1, hd1, _⟩ := hb2
          rw [hw] at hw1
          cases hw1
          exact absurd hd1 (hnone f1 d1 hf1)

/-- The analysis pass over entries at pairwise different paths keeps
`main.Exact`. -/
theorem main.analysisPass_exact {fuel : Nat} :
    ∀ (l done : List (String × List Byte)) (st st1 : Batch),
      ((done ++ l).map Prod.fst).Nodup → main.Exact fuel done st →
      main.analysisPass fuel st l = .ok st1 → main.Exact fuel (done ++ l) st1 := by
  intro l
  induction l with
  | nil =>
    intro done st st1 _ hs h
    simp only [main.analysisPass, Except.ok.injEq] at h
    rw [List.append_nil]
    exact h ▸ hs
  | cons e rest ih =>
    intro done st st1 hnd hs h
    obtain ⟨path, buffer⟩ := e
    simp only [main.analysisPass] at h
    split at h
    · cases h
    · rename_i st2 h2
      have hfresh : path ∉ done.map Prod.fst := by
        intro hmem
        simp only [List.map_append, List.map_cons] at hnd
        exact (List.nodup_append.1 hnd).2.2 hmem (List.mem_cons_self _ _)
      have e : done ++ (path, buffer) :: rest = (done ++ [(path, buffer)]) ++ rest := by simp
      rw [e] at hnd ⊢
      exact ih _ st2 st1 hnd (main.analyse_keeps_exact hfresh hs h2) h

theorem main.mem_normalizeCalls_iff (st : Batch) (p : String) (g : ℚ) :
    (p, g) ∈ main.normalizeCalls st ↔
      ∃ a, (p, a) ∈ st.fileAmplitudes ∧ a ≠ 0 ∧ a ≠ st.globalMax ∧ g = st.globalMax / a := by
  refine ⟨main.mem_normalizeCalls, ?_⟩
  rintro ⟨a, hin, h0, hmax, hg⟩
  unfold main.normalizeCalls
  rw [List.mem_map]
  refine ⟨(p, a), ?_, by rw [hg]⟩
  rw [List.mem_filter]
  refine ⟨hin, ?_⟩
  simp [h0, hmax]

theorem main.normalizeCalls_keys (st : Batch) :
    (main.normalizeCalls st).map Prod.fst
      = (st.fileAmplitudes.filter (fun e => !(e.2 = 0 || e.2 = st.globalMax))).map Prod.fst := by
  unfold main.normalizeCalls
  rw [List.map_map]
  rfl

/-- C12: after the analysis pass over a directory (every entry at a path of its
own) the map holds exactly the measured amplitudes, `globalMax` is the largest
of them (or `0`), and the second loop calls `normalizeWav` on exactly the files
whose amplitude is neither `0` nor `globalMax`, once each, with the gain
`globalMax / amplitude`; the loudest file and the files tied with it get no
call.  Amplitudes 1/5, 1/2 and 1 give the gains 5 and 2 and no call for the
third file. -/
theorem batch_gain_selection (fuel : Nat) (files : List (String × List Byte)) (st : Batch)
    (hrun : main.analysed fuel files = .ok st) (hnodup : (files.map Prod.fst).Nodup) :
    (∀ p a, (p, a) ∈ st.fileAmplitudes ↔ ∃ b, (p, b) ∈ files ∧ main.Measured fuel b a) ∧
      (∀ p a, (p, a) ∈ st.fileAmplitudes → 0 ≤ a ∧ a ≤ st.globalMax) ∧
      (st.globalMax = 0 ∨ (st.loudestFile, st.globalMax) ∈ st.fileAmplitudes) ∧
      (∀ p g, (p, g) ∈ main.normalizeCalls st ↔
        ∃ a, (p, a) ∈ st.fileAmplitudes ∧ a ≠ 0 ∧ a ≠ st.globalMax ∧ g = st.globalMax / a) ∧
      ((main.normalizeCalls st).map Prod.fst).Nodup ∧
      (∀ g, (st.loudestFile, g) ∉ main.normalizeCalls st) ∧
      main.normalizeCalls ⟨1, "c.wav", [("a.wav", 1 / 5), ("b.wav", 1 / 2), ("c.wav", 1)]⟩
        = [("a.wav", 5), ("b.wav", 2)] := by
  have hex : main.Exact fuel ([] ++ files) st :=
    main.analysisPass_exact files [] _ st (by simpa using hnodup)
      ⟨by simp, by simp, by simp, Or.inl rfl⟩ hrun
  rw [List.nil_append] at hex
  obtain ⟨ha, hb, hc, hd⟩ := hex
  refine ⟨ha, hc, hd, main.mem_normalizeCalls_iff st, ?_, ?_, by decide!⟩
  · rw [main.normalizeCalls_keys]
    exact hb.sublist (List.Sublist.map _ (List.filter_sublist _))
  · intro g hg
    obtain ⟨a, hin, h0, hmax, _⟩ := main.mem_normalizeCalls hg
    rcases hd with h1 | h1
    · have := hc _ a hin
      rw [h1] at this
      exact h0 (le_antisymm this.2 this.1)
    · have hkeys := List.inj_on_of_nodup_map hb hin h1 rfl
      simp only [Prod.mk.injEq, true_and] at hkeys
      exact hmax hkeys

/-- C12, at the directory `trioFiles`: the quieter files get the gains 4 and 2. -/
theorem batch_gain_selection_witness :
    main.analysed 2 trioFiles = .ok trioBatch ∧
      main.normalizeCalls trioBatch = [("a.wav", 4), ("b.wav", 2)] ∧
      ((∀ p a, (p, a) ∈ trioBatch.fileAmplitudes ↔
          ∃ b, (p, b) ∈ trioFiles ∧ main.Measured 2 b a) ∧
        (∀ p a, (p, a) ∈ trioBatch.fileAmplitudes → 0 ≤ a ∧ a ≤ trioBatch.globalMax) ∧
        (trioBatch.globalMax = 0 ∨
          (trioBatch.loudestFile, trioBatch.globalMax) ∈ trioBatch.fileAmplitudes) ∧
        (∀ p g, (p, g) ∈ main.normalizeCalls trioBatch ↔
          ∃ a, (p, a) ∈ trioBatch.fileAmplitudes ∧ a ≠ 0 ∧ a ≠ trioBatch.globalMax ∧
            g = trioBatch.globalMax / a) ∧
        ((main.normalizeCalls trioBatch).map Prod.fst).Nodup ∧
        (∀ g, (trioBatch.loudestFile, g) ∉ main.normalizeCalls trioBatch) ∧
        main.normalizeCalls ⟨1, "c.wav", [("a.wav", 1 / 5), ("b.wav", 1 / 2), ("c.wav", 1)]⟩
          = [("a.wav", 5), ("b.wav", 2)]) :=
  ⟨by decide!, by decide!, batch_gain_selection 2 trioFiles trioBatch (by decide!) (by decide)⟩

/-! ## The walk over a sequence of chunks -/

theorem rdU8_append_right (pfx l : List Byte) (i : Nat) :
    rdU8 (pfx ++ l) (pfx.length + i) = rdU8 l i := by
  unfold rdU8
  rw [List.getElem?_append_right (by omega)]
  simp

theorem rdU32_le32 (n : Nat) (tl : List Byte) (h : n < 4294967296) :
    rdU32 (le32 n ++ tl) 0 = .ok n := by
  unfold rdU32 rdU8 le32
  simp only [List.cons_append, List.nil_append, List.getElem?_cons_zero, List.getElem?_cons_succ,
    Nat.zero_add, bind, Except.bind, pure, Except.pure, Except.ok.injEq, Fin.ofNat]
  show n % 256 + 256 * (n / 256 % 256) + 65536 * (n / 65536 % 256)
    + 16777216 * (n / 16777216 % 256) = n
  omega

/-- The header of a chunk that starts right after `pfx`: its size field and the
result of comparing its id with a tag. -/
theorem chunk_header_reads (pfx id body : List Byte) (n : Nat) (tag : List Byte)
    (hid : id.length = 4) (hn : n < 4294967296) :
    rdU32 (pfx ++ (id ++ (le32 n ++ body))) (pfx.length + 4) = .ok n ∧
      matchTag (pfx ++ (id ++ (le32 n ++ body))) pfx.length tag = .ok (id == tag) := by
  constructor
  · have e : pfx ++ (id ++ (le32 n ++ body)) = (pfx ++ id) ++ (le32 n ++ body) := by simp
    have hl : (pfx ++ id).length = pfx.length + 4 := by simp [hid]
    have h0 := rdU32_le32 n body hn
    unfold rdU32 at h0 ⊢
    rw [e, ← hl]
    have r : ∀ i, rdU8 ((pfx ++ id) ++ (le32 n ++ body)) ((pfx ++ id).length + i)
        = rdU8 (le32 n ++ body) i := rdU8_append_right _ _
    have r0 := r 0
    rw [Nat.add_zero] at r0
    rw [r0, r 1, r 2, r 3]
    simpa using h0
  · unfold matchTag
    have hlen : pfx.length + 4 ≤ (pfx ++ (id ++ (le32 n ++ body))).length := by
      simp [hid]
    rw [if_pos hlen, List.drop_left, List.take_left' hid]

theorem le32_length (n : Nat) : (le32 n).length = 4 := rfl

theorem Spec.Chunk.bytes_length (c : Spec.Chunk) (hid : c.id.length = 4) :
    c.bytes.length = nextChunk 8 c.payload.length := by
  unfold Spec.Chunk.bytes nextChunk
  simp only [List.length_append, hid, le32_length]
  split <;> simp <;> omega

/-- From the start of a sequence of complete chunks without a `data` chunk, which
is followed by a complete `data` chunk, the walk ends at that chunk: when a
format pointer is set already or the sequence holds a `fmt ` chunk, the result
has a format pointer, the offset of the payload of the `data` chunk and its
declared size. -/
theorem processWavFile.walk_chunks (payload rest : List Byte)
    (hsz : payload.length < 4294967296) :
    ∀ (pre : List Spec.Chunk) (pfx : List Byte) (fmt0 : Option Nat) (fuel : Nat),
      (∀ c ∈ pre, c.id.length = 4 ∧ c.id ≠ tagData ∧ c.payload.length < 4294967296) →
      (fmt0 ≠ none ∨ ∃ c ∈ pre, c.id = tagFmt) →
      (pfx ++ (Spec.chunksBytes pre ++
        (tagData ++ (le32 payload.length ++ (payload ++ rest))))).length + 1
          < pfx.length + 8 * fuel →
      ∃ f, processWavFile.walk
          (pfx ++ (Spec.chunksBytes pre ++
            (tagData ++ (le32 payload.length ++ (payload ++ rest))))) fuel pfx.length fmt0
        = .ok ⟨some f, some (pfx.length + (Spec.chunksBytes pre).length + 8),
            payload.length⟩ := by
  intro pre
  induction pre with
  | nil =>
    intro pfx fmt0 fuel _ hfmt hfuel
    simp only [Spec.chunksBytes, List.nil_append, List.length_nil, Nat.add_zero] at hfuel ⊢
    have hd : tagData.length = 4 := rfl
    have hlen : (pfx ++ (tagData ++ (le32 payload.length ++ (payload ++ rest)))).length
        = pfx.length + 8 + payload.length + rest.length := by
      simp only [List.length_append, hd, le32_length]
      omega
    obtain ⟨k, hk⟩ : ∃ k, fuel = k + 1 := ⟨fuel - 1, by omega⟩
    subst hk
    obtain ⟨f, hf⟩ : ∃ f, fmt0 = some f := by
      rcases hfmt with h | ⟨c, hc, _⟩
      · exact Option.ne_none_iff_exists'.1 h
      · cases hc
    subst hf
    obtain ⟨r1, r2⟩ := chunk_header_reads pfx tagData (payload ++ rest) payload.length tagFmt
      hd hsz
    obtain ⟨_, r3⟩ := chunk_header_reads pfx tagData (payload ++ rest) payload.length tagData
      hd hsz
    rw [processWavFile.walk, r1, r2, r3, hlen]
    have e1 : pfx.length + 8 ≤ pfx.length + 8 + payload.length + rest.length := by omega
    have e2 : ¬ (pfx.length + 8 + payload.length
        > pfx.length + 8 + payload.length + rest.length) := by omega
    have e3 : (tagData == tagFmt) = false := by decide
    have e4 : (tagData == tagData) = true := by decide
    simp only [e1, e2, e3, e4, if_true, if_false]
    exact ⟨f, rfl⟩
  | cons c cs ih =>
    intro pfx fmt0 fuel hpre hfmt hfuel
    obtain ⟨hid, hnd, hn⟩ := hpre c (List.mem_cons_self _ _)
    have hpre1 : ∀ c1 ∈ cs, c1.id.length = 4 ∧ c1.id ≠ tagData ∧
        c1.payload.length < 4294967296 := fun c1 h1 => hpre c1 (List.mem_cons_of_mem _ h1)
    have hbl := Spec.Chunk.bytes_length c hid
    have hnb := nextChunk_bounds 8 c.payload.length
    have hnc : nextChunk (pfx.length + 8) c.payload.length
        = pfx.length + nextChunk 8 c.payload.length := by
      unfold nextChunk; split <;> omega
    -- the buffer, split after the chunk `c`
    have eb : pfx ++ (Spec.chunksBytes (c :: cs) ++
          (tagData ++ (le32 payload.length ++ (payload ++ rest))))
        = (pfx ++ c.bytes) ++ (Spec.chunksBytes cs ++
          (tagData ++ (le32 payload.length ++ (payload ++ rest)))) := by
      simp only [Spec.chunksBytes, List.append_assoc]
    -- the buffer, split inside the header of `c`
    have eh : (pfx ++ c.bytes) ++ (Spec.chunksBytes cs ++
          (tagData ++ (le32 payload.length ++ (payload ++ rest))))
        = pfx ++ (c.id ++ (le32 c.payload.length ++
            ((c.payload ++ if c.payload.length % 2 ≠ 0 then [c.pad] else []) ++
              (Spec.chunksBytes cs ++
                (tagData ++ (le32 payload.length ++ (payload ++ rest))))))) := by
      simp only [Spec.Chunk.bytes, List.append_assoc]
    have hl1 : (pfx ++ c.bytes).length = pfx.length + nextChunk 8 c.payload.length := by
      rw [List.length_append, hbl]
    have hcl : (Spec.chunksBytes (c :: cs)).length
        = nextChunk 8 c.payload.length + (Spec.chunksBytes cs).length := by
      simp only [Spec.chunksBytes, List.length_append, hbl]
    rw [eb] at hfuel ⊢
    have htot : (pfx ++ c.bytes).length + 8 ≤ ((pfx ++ c.bytes) ++ (Spec.chunksBytes cs ++
        (tagData ++ (le32 payload.length ++ (payload ++ rest))))).length := by
      have hd : tagData.length = 4 := rfl
      simp only [List.length_append, hd, le32_length]
      omega
    obtain ⟨k, hk⟩ : ∃ k, fuel = k + 1 := ⟨fuel - 1, by omega⟩
    subst hk
    have hstep : ∀ fmt1 : Option Nat, (fmt1 ≠ none ∨ ∃ c1 ∈ cs, c1.id = tagFmt) →
        ∃ f, processWavFile.walk ((pfx ++ c.bytes) ++ (Spec.chunksBytes cs ++
            (tagData ++ (le32 payload.length ++ (payload ++ rest))))) k
              (nextChunk (pfx.length + 8) c.payload.length) fmt1
          = .ok ⟨some f, some (pfx.length + (Spec.chunksBytes (c :: cs)).length + 8),
              payload.length⟩ := by
      intro fmt1 h1
      obtain ⟨f, hf⟩ := ih (pfx ++ c.bytes) fmt1 k hpre1 h1 (by rw [hl1] at *; omega)
      refine ⟨f, ?_⟩
      rw [hnc, ← hl1, hf, hcl, hl1]
      congr 3
      omega
    rw [processWavFile.walk]
    have e1 : pfx.length + 8 ≤ ((pfx ++ c.bytes) ++ (Spec.chunksBytes cs ++
        (tagData ++ (le32 payload.length ++ (payload ++ rest))))).length := by
      rw [hl1] at htot; omega
    have e2 : ¬ (pfx.length + 8 + c.payload.length > ((pfx ++ c.bytes) ++
        (Spec.chunksBytes cs ++
          (tagData ++ (le32 payload.length ++ (payload ++ rest))))).length) := by
      rw [hl1] at htot; omega
    rw [if_pos e1]
    obtain ⟨r1, r2⟩ := chunk_header_reads pfx c.id
      ((c.payload ++ if c.payload.length % 2 ≠ 0 then [c.pad] else []) ++
        (Spec.chunksBytes cs ++ (tagData ++ (le32 payload.length ++ (payload ++ rest)))))
      c.payload.length tagFmt hid hn
    obtain ⟨_, r3⟩ := chunk_header_reads pfx c.id
      ((c.payload ++ if c.payload.length % 2 ≠ 0 then [c.pad] else []) ++
        (Spec.chunksBytes cs ++ (tagData ++ (le32 payload.length ++ (payload ++ rest)))))
      c.payload.length tagData hid hn
    rw [← eh] at r1 r2 r3
    have e3 : (c.id == tagData) = false := by simpa using hnd
    rw [r1, r2, r3, e3]
    simp only [e2, if_false]
    by_cases hisf : c.id = tagFmt
    · have e4 : (c.id == tagFmt) = true := by simpa using hisf
      simp only [e4, if_true]
      exact hstep (some (pfx.length + 8)) (Or.inl (by simp))
    · have e4 : (c.id == tagFmt) = false := by simpa using hisf
      simp only [e4, if_false, Bool.false_eq_true]
      refine hstep fmt0 ?_
      rcases hfmt with h | ⟨c1, hc1, hc2⟩
      · exact Or.inl h
      · rcases List.mem_cons.1 hc1 with h | h
        · exact absurd (h ▸ hc2) hisf
        · exact Or.inr ⟨c1, h, hc2⟩

/-- C11: in a buffer made of any 12 header bytes, a sequence of complete chunks
that holds a `fmt ` chunk and no `data` chunk, a `data` chunk with its whole
payload, and any bytes after it, the walks of `processWavFile`, `normalizeWav`
and `main` return a format pointer and, as data range, the offset of the payload
of that first `data` chunk and its declared size. -/
theorem walk_finds_first_data_chunk (hdr : List Byte) (pre : List Spec.Chunk)
    (payload rest : List Byte) (hhdr : hdr.length = 12)
    (hpre : ∀ c ∈ pre, c.id.length = 4 ∧ c.id ≠ tagData ∧ c.payload.length < 4294967296)
    (hfmt : ∃ c ∈ pre, c.id = tagFmt) (hsz : payload.length < 4294967296) :
    ∃ f,
      processWavFile.walk
          (hdr ++ (Spec.chunksBytes pre ++ (tagData ++ (le32 payload.length ++ (payload ++ rest)))))
          ((hdr ++ (Spec.chunksBytes pre ++
            (tagData ++ (le32 payload.length ++ (payload ++ rest))))).length + 1) 12 none
        = .ok ⟨some f, some (12 + (Spec.chunksBytes pre).length + 8), payload.length⟩ ∧
      normalizeWav.walk
          (hdr ++ (Spec.chunksBytes pre ++ (tagData ++ (le32 payload.length ++ (payload ++ rest)))))
          ((hdr ++ (Spec.chunksBytes pre ++
            (tagData ++ (le32 payload.length ++ (payload ++ rest))))).length + 1) 12 none
        = .ok ⟨some f, some (12 + (Spec.chunksBytes pre).length + 8), payload.length⟩ ∧
      main.walk
          (hdr ++ (Spec.chunksBytes pre ++ (tagData ++ (le32 payload.length ++ (payload ++ rest)))))
          ((hdr ++ (Spec.chunksBytes pre ++
            (tagData ++ (le32 payload.length ++ (payload ++ rest))))).length + 1) 12 none
        = .ok ⟨some f, some (12 + (Spec.chunksBytes pre).length + 8), payload.length⟩ := by
  obtain ⟨f, hf⟩ := processWavFile.walk_chunks payload rest hsz pre hdr none
    ((hdr ++ (Spec.chunksBytes pre ++
      (tagData ++ (le32 payload.length ++ (payload ++ rest))))).length + 1)
    hpre (Or.inr hfmt) (by omega)
  rw [hhdr] at hf
  exact ⟨f, hf, by rw [normalizeWav_walk_eq]; exact hf, by rw [main_walk_eq]; exact hf⟩

/-- C11, at a file with a `LIST` chunk of odd size and a `fmt ` chunk before the
`data` chunk, and a second `data` chunk after it: the data range is the payload
of the first one, at offset 56. -/
theorem walk_finds_first_data_chunk_witness :
    ∃ f,
      processWavFile.walk
          (tagRIFF ++ [0, 0, 0, 0] ++ tagWAVE ++ (Spec.chunksBytes [listChunk, fmtChunk] ++
            (tagData ++ (le32 2 ++ ([0x00, 0x40] ++ (tagData ++ le32 0))))))
          67 12 none = .ok ⟨some f, some 56, 2⟩ ∧
      normalizeWav.walk
          (tagRIFF ++ [0, 0, 0, 0] ++ tagWAVE ++ (Spec.chunksBytes [listChunk, fmtChunk] ++
            (tagData ++ (le32 2 ++ ([0x00, 0x40] ++ (tagData ++ le32 0))))))
          67 12 none = .ok ⟨some f, some 56, 2⟩ ∧
      main.walk
          (tagRIFF ++ [0, 0, 0, 0] ++ tagWAVE ++ (Spec.chunksBytes [listChunk, fmtChunk] ++
            (tagData ++ (le32 2 ++ ([0x00, 0x40] ++ (tagData ++ le32 0))))))
          67 12 none = .ok ⟨some f, some 56, 2⟩ :=
  walk_finds_first_data_chunk (tagRIFF ++ [0, 0, 0, 0] ++ tagWAVE) [listChunk, fmtChunk]
    [0x00, 0x40] (tagData ++ le32 0) rfl
    (by
      intro c hc
      simp only [List.mem_cons, List.mem_singleton, List.not_mem_nil, or_false] at hc
      rcases hc with h | h <;> subst h <;> decide)
    ⟨fmtChunk, by simp, rfl⟩ (by decide)

/-! ## The peak after the rewrite -/

end AudioNormalizer
